import Mathlib

/-!
# ActionSpecialDialog: flag/value codec, value controls, specials tree and bulk line operations

A shallow embedding of `src/ActionSpecialDialog.cpp`.

* C++ `int` / `long` values are Lean `Int`s.  The bitwise operators `&`, `|`, `~` act on
  two's complement integers and never overflow, so they are the exact (unbounded) two's
  complement operations `bitand`, `bitor`, `bitnot` below.  The only narrowing conversion
  (`int val = getArgValue()` in `onCheck`, `int ArgsPanel::getArgValue`) is made explicit
  with `toInt`.
* A `wxString` is a `List Char`.
* Widgets are reduced to the data the code reads and writes: the text of a text control,
  the checked state handed to `SetValue`, the kind of control that was created.
-/

set_option autoImplicit false

/-! ## Machine integers -/

/-- `m & ~n` on natural numbers (bits of `m` that are not bits of `n`). -/
def natAndNot (m n : Nat) : Nat := m ^^^ (m &&& n)

/-- C++ `a & b` on two's complement integers. -/
def bitand : Int → Int → Int
  | Int.ofNat m, Int.ofNat n => Int.ofNat (m &&& n)
  | Int.ofNat m, Int.negSucc n => Int.ofNat (natAndNot m n)
  | Int.negSucc m, Int.ofNat n => Int.ofNat (natAndNot n m)
  | Int.negSucc m, Int.negSucc n => Int.negSucc (m ||| n)

/-- C++ `a | b` on two's complement integers. -/
def bitor : Int → Int → Int
  | Int.ofNat m, Int.ofNat n => Int.ofNat (m ||| n)
  | Int.ofNat m, Int.negSucc n => Int.negSucc (natAndNot n m)
  | Int.negSucc m, Int.ofNat n => Int.negSucc (natAndNot m n)
  | Int.negSucc m, Int.negSucc n => Int.negSucc (m &&& n)

/-- C++ `~a` on two's complement integers. -/
def bitnot : Int → Int
  | Int.ofNat m => Int.negSucc m
  | Int.negSucc m => Int.ofNat m

/-- Largest value of a C++ `int` (32 bits). -/
def INT_MAX : Int := 2147483647

/-- Largest value of a C++ `long` (64 bits, LP64). -/
def LONG_MAX : Int := 9223372036854775807

/-- Conversion of a `long` to `int`: keeps the low 32 bits, read as two's complement. -/
def toInt (x : Int) : Int := (x + 2147483648) % 4294967296 - 2147483648

/-! ## Strings: `S_FMT("%ld", v)` and `wxString::ToLong` -/

/-- A `wxString`. -/
abbrev wxString := List Char

/-- `S_FMT("%ld", val)` / `S_FMT("%d", val)`: the decimal representation of `val`. -/
def fmtLong (val : Int) : wxString :=
  match val with
  | Int.ofNat n => Nat.toDigits 10 n
  | Int.negSucc n => '-' :: Nat.toDigits 10 (n + 1)

/-- The characters `strtol` skips before the number (`isspace` in the C locale). -/
def isSpace (c : Char) : Bool :=
  c == ' ' || c == '\t' || c == '\n' || c == '\x0b' || c == '\x0c' || c == '\r'

/-- Decimal digits at the start of `s`: their number and the value they denote on top of
`acc` (the digit loop of `strtol` in base 10). -/
def parseDigits : List Char → Nat → Nat → Nat × Nat
  | [], count, acc => (count, acc)
  | c :: cs, count, acc =>
    if c.isDigit then parseDigits cs (count + 1) (acc * 10 + (c.toNat - 48)) else (count, acc)

/-- The sign and digits part of `strtol`: `none` when there is no digit. -/
def parseSigned (s : List Char) : Option Int :=
  match s with
  | [] => none
  | c :: cs =>
    if c = '-' then
      (if (parseDigits cs 0 0).1 = 0 then none else some (- ((parseDigits cs 0 0).2 : Int)))
    else if c = '+' then
      (if (parseDigits cs 0 0).1 = 0 then none else some ((parseDigits cs 0 0).2 : Int))
    else
      (if (parseDigits (c :: cs) 0 0).1 = 0 then none
       else some ((parseDigits (c :: cs) 0 0).2 : Int))

/-- `wxString::ToLong(&ret)` as `getArgValue` uses it (the boolean result is ignored there):
`strtol` in base 10 skips leading white space, reads an optional sign and the longest run of
digits.  `ret` is written when at least one digit was read and the number fits in a `long`;
otherwise it is left untouched, which the callers below see as `none` (their `ret` is
uninitialised). -/
def ToLong (s : wxString) : Option Int :=
  match parseSigned (s.dropWhile isSpace) with
  | none => none
  | some v => if - LONG_MAX - 1 ≤ v ∧ v ≤ LONG_MAX then some v else none

/-! ## ArgsTextControl -/

namespace ArgsTextControl

/-- `ArgsTextControl::getArgValue`: the value of the argument read from the text box whose
content is `text_control`.  `none` stands for the indeterminate result on text that
`ToLong` does not accept. -/
def getArgValue (text_control : wxString) : Option Int :=
  -- Empty string means ignore it
  if text_control = [] then some (-1) else ToLong text_control

/-- `ArgsTextControl::setArgValue`: the new content of the text box (`ChangeValue` replaces
the whole text). -/
def setArgValue (val : Int) : wxString :=
  if val < 0 then [] else fmtLong val

end ArgsTextControl

/-! ## ArgsFlagsControl -/

/-- One entry of `arg_t::custom_flags` / `custom_values`: a label and its numeric value. -/
structure arg_val_t where
  name : String
  value : Int
deriving DecidableEq, Repr

/-- The widgets the flags control creates. -/
inductive wxControl where
  /-- A `wxRadioButton`; `rb_group` tells whether it was created with `wxRB_GROUP`. -/
  | wxRadioButton ( rb_group : Bool)
  /-- A `wxCheckBox`. -/
  | wxCheckBox
deriving DecidableEq, Repr

namespace ArgsFlagsControl

/-- `ArgsFlagsControl::isPowerOfTwo`. -/
def isPowerOfTwo (n : Int) : Bool := bitand n (n - 1) == 0

/-- The value of `flags[i]` (0 outside the vector, where the code never reads). -/
def flagValue (flags : List arg_val_t) (i : Nat) : Int :=
  match flags[i]? with
  | some f => f.value
  | none => 0

/-- The entry `flag_to_bit_group[i]` (0 outside the vector, where the code never reads). -/
def groupMask (flag_to_bit_group : List Int) (i : Nat) : Int :=
  match flag_to_bit_group[i]? with
  | some g => g
  | none => 0

/-- The entry `flag_done[i]` (false outside the vector, where the code never reads). -/
def isDone (flag_done : List Bool) (i : Nat) : Bool :=
  match flag_done[i]? with
  | some b => b
  | none => false

/-- The inner loop of the `bit_groups` pass: the first group sharing a bit with `value`
absorbs it.  `none` when no group matched (`found_match` stays false). -/
def mergeBitGroup (value : Int) : List Int → Option (List Int)
  | [] => none
  | g :: gs =>
    if bitand g value ≠ 0 then some (bitor g value :: gs)
    else (mergeBitGroup value gs).map (fun gs' => g :: gs')

/-- One iteration of the `bit_groups` pass of the constructor. -/
def bitGroupsStep (bit_groups : List Int) (flag : arg_val_t) : List Int :=
  let value := flag.value
  if isPowerOfTwo value then bit_groups
  else
    match mergeBitGroup value bit_groups with
    | some merged => merged
    | none => bit_groups ++ [value]

/-- The `bit_groups` vector the constructor computes from the flags. -/
def bitGroups (flags : List arg_val_t) : List Int :=
  flags.foldl bitGroupsStep []

/-- The per-flag vectors the constructor fills in. -/
structure Controls where
  /-- Parallel vector of bitmasks for the groups each flag belongs to, or 0 -/
  flag_to_bit_group : List Int
  /-- Parallel vector of the checkboxes and radio buttons created (`none` is `NULL`) -/
  controls : List (Option wxControl)
  /-- The constructor's local `flag_done` -/
  flag_done : List Bool
deriving DecidableEq, Repr

/-- `ArgsFlagsControl::addControl`: bookkeeping of a new checkbox or radio button. -/
def addControl (st : Controls) (control : wxControl) (index : Nat) (group : Int) : Controls :=
  { st with
    controls := st.controls.set index (some control)
    flag_to_bit_group := st.flag_to_bit_group.set index group }

/-- The group lookup of the control pass: the first bit group sharing a bit with
`check_against`, or 0. -/
def findGroup (bit_groups : List Int) (check_against : Int) : Int :=
  match bit_groups with
  | [] => 0
  | g :: gs => if bitand g check_against ≠ 0 then g else findGroup gs check_against

/-- The value flag `i` is checked against: its own, or the next flag's when it is 0 and
not the last flag. -/
def checkAgainst (flags : List arg_val_t) (i : Nat) : Int :=
  if flagValue flags i = 0 ∧ i + 1 < flags.length then flagValue flags (i + 1)
  else flagValue flags i

/-- One iteration of the loop over the later flags `ii` of a group. -/
def markLaterStep (flags : List arg_val_t) (group : Int) (st : Controls) (ii : Nat) :
    Controls :=
  if isDone st.flag_done ii then st
  else if bitand (flagValue flags ii) group ≠ 0 then
    { addControl st (wxControl.wxRadioButton false) ii group with
      flag_done := st.flag_done.set ii true }
  else st

/-- The loop `for (ii = i + 1; ii < flags.size(); ii++)` of the control pass. -/
def markLater (flags : List arg_val_t) (group : Int) (i : Nat) (st : Controls) : Controls :=
  (List.range' (i + 1) (flags.length - (i + 1))).foldl (markLaterStep flags group) st

/-- One iteration of the control pass of the constructor. -/
def controlStep (flags : List arg_val_t) (bit_groups : List Int) (st : Controls) (i : Nat) :
    Controls :=
  if isDone st.flag_done i then st
  else
    -- Check if this flag is part of a group
    let group := findGroup bit_groups (checkAgainst flags i)
    if group ≠ 0 then
      markLater flags group i (addControl st (wxControl.wxRadioButton true) i group)
    else
      addControl st wxControl.wxCheckBox i 0

/-- The constructor `ArgsFlagsControl::ArgsFlagsControl`: both passes. -/
def construct (flags : List arg_val_t) : Controls :=
  (List.range flags.length).foldl (controlStep flags (bitGroups flags))
    { flag_to_bit_group := List.replicate flags.length 0
      controls := List.replicate flags.length none
      flag_done := List.replicate flags.length false }

/-- The `flag_to_bit_group` vector after construction. -/
def flagToBitGroup (flags : List arg_val_t) : List Int :=
  (construct flags).flag_to_bit_group

/-- The body of the loop of `updateCheckState` for one flag: the state handed to `SetValue`
of its radio button (group mask not 0) or checkbox. -/
def checkState (val : Int) (value : Int) (group : Int) : Bool :=
  if group ≠ 0 then
    decide (val ≥ 0) && (bitand val group == value)
  else
    decide (val ≥ 0) && (bitand val value == value)

/-- `ArgsFlagsControl::updateCheckState`: the checked state set on each control, in flag
order. -/
def updateCheckState (flags : List arg_val_t) (flag_to_bit_group : List Int) (val : Int) :
    List Bool :=
  (List.range flags.length).map fun i =>
    checkState val (flagValue flags i) (groupMask flag_to_bit_group i)

/-- The new value `onCheck` computes from the current `val >= 0` when the control of flag
`i` changes to `isChecked` (the value it hands to `ArgsTextControl::setArgValue`). -/
def toggledValue (flags : List arg_val_t) (flag_to_bit_group : List Int) (val : Int)
    (i : Nat) (isChecked : Bool) : Int :=
  -- Remove the entire group
  let val1 :=
    if groupMask flag_to_bit_group i ≠ 0 then bitand val (bitnot (groupMask flag_to_bit_group i))
    else bitand val (bitnot (flagValue flags i))
  -- Then re-add if appropriate
  if isChecked then bitor val1 (flagValue flags i) else val1

/-- `ArgsFlagsControl::onCheck` for an event of the control of flag `i` whose new state is
`isChecked`: the content of the text box afterwards.  `none` when the text box holds text
`getArgValue` cannot read. -/
def onCheck (flags : List arg_val_t) (flag_to_bit_group : List Int) (text_control : wxString)
    (i : Nat) (isChecked : Bool) : Option wxString :=
  match ArgsTextControl.getArgValue text_control with
  | none => none
  | some v =>
    let val := toInt v
    if val < 0 then some text_control
    else if i < flags.length then
      some (ArgsTextControl.setArgValue (toggledValue flags flag_to_bit_group val i isChecked))
    else some text_control

/-- `ArgsFlagsControl::onKeypress`: the checked states after the text box was edited,
`updateCheckState(getArgValue())`. -/
def onKeypress (flags : List arg_val_t) (flag_to_bit_group : List Int)
    (text_control : wxString) : Option (List Bool) :=
  (ArgsTextControl.getArgValue text_control).map (updateCheckState flags flag_to_bit_group)

/-- Encoding of a selection: starting from the value 0 (text "0"), the controls of
`selected` are switched on one after the other, each through `onCheck`. -/
def encode (flags : List arg_val_t) (flag_to_bit_group : List Int) (selected : List Nat) :
    Option wxString :=
  selected.foldl
    (fun text i => text.bind fun t => onCheck flags flag_to_bit_group t i true) (some ['0'])

end ArgsFlagsControl

/-! ## Map lines and bulk property queries -/

/-- Modelled from the spec: `MapObject` (declared outside this file) is an externally owned
line object that accepts integer property writes (the special id, the five argument slots)
and boolean property writes (trigger flags).  It is modelled by its property tables. -/
structure MapObject where
  int_props : String → Int
  bool_props : String → Bool

namespace MapObject

/-- Modelled from the spec: `MapObject::intProperty`, read of an integer property. -/
def intProperty (o : MapObject) (key : String) : Int := o.int_props key

/-- Modelled from the spec: `MapObject::boolProperty`, read of a boolean property. -/
def boolProperty (o : MapObject) (key : String) : Bool := o.bool_props key

/-- Modelled from the spec: `MapObject::setIntProperty`, write of an integer property. -/
def setIntProperty (o : MapObject) (key : String) (value : Int) : MapObject :=
  { o with int_props := fun k => if k = key then value else o.int_props k }

/-- Modelled from the spec: `MapObject::setBoolProperty`, write of a boolean property. -/
def setBoolProperty (o : MapObject) (key : String) (value : Bool) : MapObject :=
  { o with bool_props := fun k => if k = key then value else o.bool_props k }

/-- Modelled from the spec: `MapObject::multiIntProperty` (defined outside this file), the
bulk multi-line query that "returns a single agreed value or a distinguished disagreement
signal when line properties differ".  The result is the returned flag and the content of the
reference argument `value` afterwards: the agreed value, or `value` untouched when the
lines disagree or there is none. -/
def multiIntProperty (objects : List MapObject) (prop : String) (value : Int) : Bool × Int :=
  match objects with
  | [] => (false, value)
  | o :: os =>
    if os.all (fun o' => o'.intProperty prop == o.intProperty prop) then
      (true, o.intProperty prop)
    else (false, value)

/-- Modelled from the spec: `MapObject::multiBoolProperty`, as `multiIntProperty`. -/
def multiBoolProperty (objects : List MapObject) (prop : String) (value : Bool) : Bool × Bool :=
  match objects with
  | [] => (false, value)
  | o :: os =>
    if os.all (fun o' => o'.boolProperty prop == o.boolProperty prop) then
      (true, o.boolProperty prop)
    else (false, value)

end MapObject

/-! ## ArgsPanel -/

namespace ArgsPanel

/-- `ArgsPanel::setValues`: the value handed to `setArgValue` of each of the five arg
controls, where `args` is the array `int args[5]`. -/
def setValues (args : List Int) : List Int :=
  (List.range 5).map fun a => args.getD a 0

/-- `ArgsPanel::getArgValue`, where `control_args` holds what `getArgValue()` of each of the
five arg controls currently returns. -/
def getArgValue (control_args : List Int) (index : Int) : Int :=
  -- Check index
  if index < 0 ∨ index > 4 then -1
  else toInt (control_args.getD index.toNat 0)

end ArgsPanel

/-! ## ActionSpecialPanel -/

/-- State of a three-state `wxCheckBox`. -/
inductive wxCheckBoxState where
  | wxCHK_UNCHECKED
  | wxCHK_CHECKED
  | wxCHK_UNDETERMINED
deriving DecidableEq, Repr

namespace ActionSpecialPanel

/-- The names of the five argument properties of a line. -/
def argProps : List String := ["arg0", "arg1", "arg2", "arg3", "arg4"]

/-- What `openLines` loads into the panel. -/
structure Opened where
  /-- The argument of the call `setSpecial(special)` -/
  special : Int
  /-- The values `panel_args->setValues(args)` hands to the arg controls, when there is an
  args panel -/
  args : Option (List Int)
  /-- The states set on the UDMF trigger checkboxes `cb_triggers`, when triggers are shown -/
  triggers : List wxCheckBoxState

/-- `ActionSpecialPanel::setSpecial`: the content of the special number box `text_special`
afterwards.  `isBoom` is `theGameConfiguration->isBoom()` and `loadSpecial` is
`GenLineSpecialPanel::loadSpecial`, both external: a Boom generalised special is shown in
its own panel and leaves the number box alone. -/
def setSpecial (isBoom : Bool) (loadSpecial : Int → Bool) (text_special : wxString)
    (special : Int) : wxString :=
  if isBoom && loadSpecial special then text_special
  else fmtLong special

/-- `ActionSpecialPanel::openLines`: `none` when `lines` is empty (nothing is loaded).
`panel_args` tells whether there is an args panel; `triggers_udmf` lists the UDMF trigger
properties when `show_trigger` is set and the trigger checkboxes exist (the selection of
the Hexen trigger drop-down, which depends on external code only, is left out). -/
def openLines (panel_args : Bool) (triggers_udmf : List String) (lines : List MapObject) :
    Option Opened :=
  match lines with
  | [] => none
  | line0 :: _ =>
    -- Special
    let special := line0.intProperty "special"
    let special := (MapObject.multiIntProperty lines "special" special).2
    -- Args
    let args :=
      if panel_args then
        some (ArgsPanel.setValues
          (argProps.map fun prop => (MapObject.multiIntProperty lines prop (-1)).2))
      else none
    -- Trigger (UDMF)
    let triggers := triggers_udmf.map fun prop =>
      match MapObject.multiBoolProperty lines prop false with
      | (true, set) =>
        if set then wxCheckBoxState.wxCHK_CHECKED else wxCheckBoxState.wxCHK_UNCHECKED
      | (false, _) => wxCheckBoxState.wxCHK_UNDETERMINED
    some { special := special, args := args, triggers := triggers }

/-- The trigger controls of the panel, as `applyTo` reads them. -/
structure Triggers where
  show_trigger : Bool
  /-- The UDMF trigger properties with the state of their checkbox -/
  cb_triggers : List (String × wxCheckBoxState)
  /-- The selection of the Hexen trigger drop-down (`none` when `choice_trigger` is `NULL`) -/
  choice_trigger : Option Int

/-- The trigger part of the loop body of `applyTo` for one line.  `setLineSpacTrigger` is
`theGameConfiguration->setLineSpacTrigger`, external. -/
def applyTriggers (setLineSpacTrigger : Int → MapObject → MapObject) (t : Triggers)
    (line : MapObject) : MapObject :=
  if t.show_trigger then
    -- UDMF
    if ¬ t.cb_triggers.isEmpty then
      t.cb_triggers.foldl (fun l cb =>
        match cb.2 with
        | wxCheckBoxState.wxCHK_UNDETERMINED => l
        | wxCheckBoxState.wxCHK_CHECKED => l.setBoolProperty cb.1 true
        | wxCheckBoxState.wxCHK_UNCHECKED => l.setBoolProperty cb.1 false) line
    -- Hexen
    else
      match t.choice_trigger with
      | some sel => if sel ≥ 0 then setLineSpacTrigger sel line else line
      | none => line
  else line

/-- The args part of the loop body of `applyTo` for one line: `args` holds the five values
read from the args panel. -/
def applyArgs (args : List Int) (line : MapObject) : MapObject :=
  (List.range 5).foldl (fun l n =>
    if args.getD n 0 ≥ 0 then l.setIntProperty (argProps.getD n "") (args.getD n 0) else l) line

/-- `ActionSpecialPanel::applyTo`: the lines afterwards.  `special` is what
`selectedSpecial()` returns; `panel_args` holds what `getArgValue()` of the five arg
controls returns when there is an args panel. -/
def applyTo (special : Int) (panel_args : Option (List Int))
    (setLineSpacTrigger : Int → MapObject → MapObject) (t : Triggers)
    (lines : List MapObject) (apply_special : Bool) : List MapObject :=
  -- Special
  let lines1 :=
    if apply_special ∧ special ≥ 0 then
      lines.map fun l => l.setIntProperty "special" special
    else lines
  -- Args
  let lines2 :=
    match panel_args with
    | some control_args =>
      let args := (List.range 5).map fun n => ArgsPanel.getArgValue control_args n
      lines1.map (applyArgs args)
    | none => lines1
  -- Trigger(s)
  lines2.map (applyTriggers setLineSpacTrigger t)

end ActionSpecialPanel

/-! ## ArgsChoiceControl, ArgsSpeedControl and setArgValue of the flags control -/

/-- The part of a `wxComboBox` the choice control uses: the index of the selected item
(`none` is `wxNOT_FOUND`) and the content of the text field. -/
structure wxComboBox where
  selection : Option Nat
  value : wxString
deriving DecidableEq, Repr

namespace ArgsChoiceControl

/-- The label of a combo box item, `S_FMT("%d: %s", value, name)`. -/
def itemLabel (choice : arg_val_t) : wxString :=
  fmtLong choice.value ++ [':', ' '] ++ choice.name.toList

/-- `wxComboBox::ChangeValue`: replaces the text; the new text (digits or nothing) is not
the label of an item, so no item is selected afterwards. -/
def ChangeValue (_choice_control : wxComboBox) (text : wxString) : wxComboBox :=
  { selection := none, value := text }

/-- `wxComboBox::SetSelection`: selects item `i` and shows its label. -/
def SetSelection (choices : List arg_val_t) (_choice_control : wxComboBox) (i : Nat) :
    wxComboBox :=
  { selection := some i
    value := match choices[i]? with
      | some c => itemLabel c
      | none => [] }

/-- The loop of `setArgValue` looking for a name for the value: the index of the first
choice whose value is `val`, counted from `i`. -/
def findChoice : List arg_val_t → Int → Nat → Option Nat
  | [], _, _ => none
  | c :: cs, val, i => if val = c.value then some i else findChoice cs val (i + 1)

/-- `ArgsChoiceControl::getArgValue`. -/
def getArgValue (choices : List arg_val_t) (choice_control : wxComboBox) : Option Int :=
  match choice_control.selection with
  | none =>
    -- No match.  User must have entered a value themselves
    if choice_control.value = [] then some (-1) else ToLong choice_control.value
  | some selected =>
    match choices[selected]? with
    | some c => some c.value
    | none => none

/-- `ArgsChoiceControl::setArgValue`. -/
def setArgValue (choices : List arg_val_t) (choice_control : wxComboBox) (val : Int) :
    wxComboBox :=
  if val < 0 then ChangeValue choice_control []
  else
    match findChoice choices val 0 with
    | some i => SetSelection choices choice_control i
    | none => ChangeValue choice_control (fmtLong val)

end ArgsChoiceControl

namespace ArgsFlagsControl

/-- `ArgsFlagsControl::setArgValue`: the content of the text box and the checked states
afterwards. -/
def setArgValue (flags : List arg_val_t) (flag_to_bit_group : List Int) (val : Int) :
    wxString × List Bool :=
  (ArgsTextControl.setArgValue val, updateCheckState flags flag_to_bit_group val)

end ArgsFlagsControl

/-- The state of an `ArgsSpeedControl` (its label text, a formatted floating point number,
is left out). -/
structure ArgsSpeedControl where
  text_control : wxString
  /-- The argument of the last `slider_control->SetValue` -/
  slider_control : Int
deriving DecidableEq, Repr

namespace ArgsSpeedControl

/-- `ArgsSpeedControl::syncControls`, for an `int` value. -/
def syncControls (_c : ArgsSpeedControl) (value : Int) : ArgsSpeedControl :=
  { text_control := ArgsTextControl.setArgValue value
    slider_control := if value < 0 then 0 else value }

/-- `ArgsSpeedControl::setArgValue`: the `long` argument is passed to `syncControls(int)`. -/
def setArgValue (c : ArgsSpeedControl) (val : Int) : ArgsSpeedControl :=
  syncControls c (toInt val)

/-- `getArgValue` of the speed control, inherited from `ArgsTextControl`. -/
def getArgValue (c : ArgsSpeedControl) : Option Int :=
  ArgsTextControl.getArgValue c.text_control

end ArgsSpeedControl

/-! ## ActionSpecialTreeView -/

/-- A `wxDataViewItem`: 0 is the invalid item, which also stands for the invisible root;
the item created as the `k`-th node of the tree is `k` (counted from 1). -/
abbrev wxDataViewItem := Nat

/-- A node of the `wxDataViewTreeCtrl`. -/
structure TreeNode where
  parent : wxDataViewItem
  text : wxString
  container : Bool
deriving DecidableEq, Repr

/-- An entry of `ActionSpecialTreeView::groups`: a container item and its full path. -/
structure astv_group_t where
  item : wxDataViewItem
  name : wxString
deriving DecidableEq, Repr

/-- An action special as the game configuration lists it: its number, and the name and the
group path of its `ActionSpecial`. -/
structure as_t where
  number : Int
  name : wxString
  group : wxString
deriving DecidableEq, Repr

/-- The state of an `ActionSpecialTreeView`. -/
structure ActionSpecialTreeView where
  /-- The nodes of the tree control in the order they were appended -/
  nodes : List TreeNode
  groups : List astv_group_t
  item_none : wxDataViewItem
  /-- The selected item, `GetSelection()`; 0 (not `IsOk()`) when there is none -/
  selection : wxDataViewItem
deriving DecidableEq, Repr

/-- The state of the scan of `wxSplit`: the tokens found, the current token and whether the
previous character was the escape character or the separator. -/
structure SplitState where
  ret : List wxString
  curr : wxString
  prev_escape : Bool
  prev_sep : Bool

/-- One character of the scan of `wxSplit(str, '/')` (escape character `\`): a separator
ends the current token unless it follows the escape character, which it then replaces. -/
def wxSplitStep (st : SplitState) (ch : Char) : SplitState :=
  if ch = '/' then
    if st.prev_escape then
      { st with curr := st.curr.dropLast ++ ['/'], prev_escape := false, prev_sep := true }
    else
      { ret := st.ret ++ [st.curr], curr := [], prev_escape := false, prev_sep := true }
  else
    { st with curr := st.curr ++ [ch], prev_escape := decide (ch = '\\'), prev_sep := false }

/-- `wxSplit(str, '/')`: the tokens of `str` between separators; the last token is added
when it is not empty or the string ends with a separator, so the empty string has no
token. -/
def wxSplit (str : wxString) : List wxString :=
  let st := str.foldl wxSplitStep { ret := [], curr := [], prev_escape := false, prev_sep := false }
  if st.curr ≠ [] ∨ st.prev_sep then st.ret ++ [st.curr] else st.ret

/-- The text after the number `ToLong` reads at the start of `s`. -/
def afterNumber (s : wxString) : wxString :=
  match s.dropWhile isSpace with
  | [] => []
  | c :: cs => if c = '-' ∨ c = '+' then cs.dropWhile Char.isDigit
    else (c :: cs).dropWhile Char.isDigit

/-- `wxString::ToLong(&s)` where the caller checks the result: the number when `ToLong`
returns true, which also requires that the whole string was read. -/
def ToLongChecked (s : wxString) : Option Int :=
  if afterNumber s = [] then ToLong s else none

namespace ActionSpecialTreeView

/-- `AppendItem(parent, text)`: the tree afterwards and the new item. -/
def AppendItem (tv : ActionSpecialTreeView) (parent : wxDataViewItem) (text : wxString) :
    ActionSpecialTreeView × wxDataViewItem :=
  ({ tv with nodes := tv.nodes ++ [⟨parent, text, false⟩] }, tv.nodes.length + 1)

/-- `AppendContainer(parent, text)`: the tree afterwards and the new container item. -/
def AppendContainer (tv : ActionSpecialTreeView) (parent : wxDataViewItem) (text : wxString) :
    ActionSpecialTreeView × wxDataViewItem :=
  ({ tv with nodes := tv.nodes ++ [⟨parent, text, true⟩] }, tv.nodes.length + 1)

/-- `GetItemText(item)`. -/
def GetItemText (tv : ActionSpecialTreeView) (item : wxDataViewItem) : wxString :=
  match item with
  | 0 => []
  | k + 1 =>
    match tv.nodes[k]? with
    | some node => node.text
    | none => []

/-- The children of `parent` in order: `GetNthChild(parent, b)` for `b` from 0 to
`GetChildCount(parent) - 1`. -/
def childrenOf (nodes : List TreeNode) (parent : wxDataViewItem) : List wxDataViewItem :=
  ((List.range nodes.length).filter fun k =>
    match nodes[k]? with
    | some node => node.parent == parent
    | none => false).map fun k => k + 1

/-- `ActionSpecialTreeView::specialNumber`: the number in front of the first `:` of the
item's text, -1 when there is none. -/
def specialNumber (tv : ActionSpecialTreeView) (item : wxDataViewItem) : Int :=
  let num := (GetItemText tv item).takeWhile fun c => c ≠ ':'
  match ToLongChecked num with
  | some s => toInt s
  | none => -1

/-- `ActionSpecialTreeView::showSpecial`: the loops over the groups and their children
stop at the first item whose number is `special`. -/
def showSpecial (tv : ActionSpecialTreeView) (special : Int) : ActionSpecialTreeView :=
  if special = 0 then { tv with selection := tv.item_none }
  else
    match (tv.groups.flatMap fun g => childrenOf tv.nodes g.item).find?
        fun item => specialNumber tv item == special with
    | some item => { tv with selection := item }
    | none => tv

/-- `ActionSpecialTreeView::selectedSpecial`. -/
def selectedSpecial (tv : ActionSpecialTreeView) : Int :=
  if tv.selection ≠ 0 then specialNumber tv tv.selection else -1

/-- The loop of `getGroup` over the segments of the path that are still to do: `current`
and `fullpath` are the loop variables, `later` tells whether `p > 0`. -/
def createGroups (tv : ActionSpecialTreeView) (path : List wxString)
    (current : wxDataViewItem) (fullpath : wxString) (later : Bool) :
    ActionSpecialTreeView × wxDataViewItem :=
  match path with
  | [] => (tv, current)
  | segment :: rest =>
    let fullpath := (if later then fullpath ++ ['/'] else fullpath) ++ segment
    match tv.groups.find? fun g => g.name == fullpath with
    | some g => createGroups tv rest g.item fullpath true
    | none =>
      let added := AppendContainer tv current segment
      createGroups { added.1 with groups := added.1.groups ++ [⟨added.2, fullpath⟩] } rest
        added.2 fullpath true

/-- `ActionSpecialTreeView::getGroup`: the tree afterwards and the item of the group. -/
def getGroup (tv : ActionSpecialTreeView) (group : wxString) :
    ActionSpecialTreeView × wxDataViewItem :=
  -- Check if group was already made
  match tv.groups.find? fun g => group == g.name with
  | some g => (tv, g.item)
  | none => createGroups tv (wxSplit group) 0 [] false

/-- The label of a special, `S_FMT("%d: %s", number, name)`. -/
def specialLabel (s : as_t) : wxString :=
  fmtLong s.number ++ [':', ' '] ++ s.name

/-- The constructor `ActionSpecialTreeView::ActionSpecialTreeView`: the item "0: None" and
then one item per special, sorted by number, under the item of its group. -/
def construct (specials : List as_t) : ActionSpecialTreeView :=
  let none_item := AppendItem { nodes := [], groups := [], item_none := 0, selection := 0 } 0
    ['0', ':', ' ', 'N', 'o', 'n', 'e']
  (List.insertionSort (fun a b => a.number ≤ b.number) specials).foldl
    (fun tv s =>
      let group := getGroup tv s.group
      (AppendItem group.1 group.2 (specialLabel s)).1)
    { none_item.1 with item_none := none_item.2 }

/-- A sequence of `getGroup` calls. -/
def getGroups (tv : ActionSpecialTreeView) (paths : List wxString) : ActionSpecialTreeView :=
  paths.foldl (fun tv group => (getGroup tv group).1) tv

end ActionSpecialTreeView

/-! ## Predicates used in the statements -/

/-- Every bit of `v` is a bit of `g`. -/
def BitsWithin (v g : Int) : Prop := ∀ k, v.testBit k = true → g.testBit k = true

/-- Some bit group of the list contains every bit of `v`. -/
def Covered (bit_groups : List Int) (v : Int) : Prop := ∃ g ∈ bit_groups, BitsWithin v g

/-- The bits `onCheck` clears for control `i`: its group mask, or its own value when it is
independent. -/
def ArgsFlagsControl.clearMask (flags : List arg_val_t) (groups : List Int) (i : Nat) : Int :=
  if ArgsFlagsControl.groupMask groups i ≠ 0 then ArgsFlagsControl.groupMask groups i
  else ArgsFlagsControl.flagValue flags i

/-- The value after switching on the controls of `selected` one after the other, from `w`. -/
def ArgsFlagsControl.valueFold (flags : List arg_val_t) (groups : List Int) (w : Int)
    (selected : List Nat) : Int :=
  selected.foldl (fun w i => ArgsFlagsControl.toggledValue flags groups w i true) w

/-- The flag lists on which the encoding of a selection can be decoded: the values are
pairwise distinct non-negative `int`s, every grouped flag's value lies within its group mask,
and two different group masks share no bit. -/
structure ArgsFlagsControl.Separated (flags : List arg_val_t) (groups : List Int) : Prop where
  range : ∀ i, i < flags.length →
    0 ≤ ArgsFlagsControl.flagValue flags i ∧ ArgsFlagsControl.flagValue flags i ≤ INT_MAX
  distinct : ∀ i, i < flags.length → ∀ j, j < flags.length →
    ArgsFlagsControl.flagValue flags i = ArgsFlagsControl.flagValue flags j → i = j
  within : ∀ i, i < flags.length → ArgsFlagsControl.groupMask groups i ≠ 0 →
    bitand (ArgsFlagsControl.flagValue flags i) (ArgsFlagsControl.groupMask groups i) =
      ArgsFlagsControl.flagValue flags i
  disjoint : ∀ i, i < flags.length → ∀ j, j < flags.length →
    ArgsFlagsControl.groupMask groups i ≠ ArgsFlagsControl.groupMask groups j →
    bitand (ArgsFlagsControl.groupMask groups i) (ArgsFlagsControl.groupMask groups j) = 0

/-- A selection of controls: any combination of controls of the list with at most one
member per bit group. -/
structure ArgsFlagsControl.Selection (flags : List arg_val_t) (groups : List Int)
    (selected : List Nat) : Prop where
  in_range : ∀ i ∈ selected, i < flags.length
  one_per_group : ∀ i ∈ selected, ∀ j ∈ selected, ArgsFlagsControl.groupMask groups i ≠ 0 →
    ArgsFlagsControl.groupMask groups i = ArgsFlagsControl.groupMask groups j → i = j

/-- What holds of the constructor's vectors after the control pass has handled the flags
before index `m`. -/
structure ArgsFlagsControl.PassInv (flags : List arg_val_t) (bit_groups : List Int) (m : Nat)
    (st : ArgsFlagsControl.Controls) : Prop where
  len_group : st.flag_to_bit_group.length = flags.length
  len_done : st.flag_done.length = flags.length
  done_grouped : ∀ i, ArgsFlagsControl.isDone st.flag_done i = true →
    ArgsFlagsControl.groupMask st.flag_to_bit_group i ≠ 0
  independent : ∀ i, i < m → ArgsFlagsControl.groupMask st.flag_to_bit_group i = 0 →
    ArgsFlagsControl.findGroup bit_groups (ArgsFlagsControl.checkAgainst flags i) = 0
  mask_mem : ∀ i, ArgsFlagsControl.groupMask st.flag_to_bit_group i ≠ 0 →
    ArgsFlagsControl.groupMask st.flag_to_bit_group i ∈ bit_groups

/-- What the control pass has recorded for each flag after handling the flags before
index `m`: a flag claimed by an earlier group leader (`flag_done`) is a plain radio button
whose mask is a bit group sharing a bit with its value; a flag handled as a leader has the
first bit group sharing a bit with the value it is checked against, or none. -/
structure ArgsFlagsControl.PassInfo (flags : List arg_val_t) (bit_groups : List Int) (m : Nat)
    (st : ArgsFlagsControl.Controls) : Prop where
  len_controls : st.controls.length = flags.length
  done_info : ∀ i, ArgsFlagsControl.isDone st.flag_done i = true →
    ArgsFlagsControl.groupMask st.flag_to_bit_group i ∈ bit_groups ∧
    bitand (ArgsFlagsControl.flagValue flags i)
      (ArgsFlagsControl.groupMask st.flag_to_bit_group i) ≠ 0 ∧
    st.controls[i]? = some (some (wxControl.wxRadioButton false))
  leader_info : ∀ i, i < m → ArgsFlagsControl.isDone st.flag_done i = false →
    ArgsFlagsControl.groupMask st.flag_to_bit_group i =
      ArgsFlagsControl.findGroup bit_groups (ArgsFlagsControl.checkAgainst flags i) ∧
    st.controls[i]? = some (some
      (if ArgsFlagsControl.groupMask st.flag_to_bit_group i ≠ 0 then wxControl.wxRadioButton true
       else wxControl.wxCheckBox))

/-! ## Example data -/

/-- A line with the given special whose other integer properties, the args `arg0`..`arg4`
among them, are all `arg` (every boolean property false). -/
def exampleLine (special arg : Int) : MapObject :=
  { int_props := fun k => if k = "special" then special else arg
    bool_props := fun _ => false }

/-- Three lines whose specials are 1, 2 and 3 and whose args are 7, 7 and 9. -/
def threeLines : List MapObject :=
  [exampleLine 1 7, exampleLine 2 7, exampleLine 3 9]

/-- A flag list whose bit groups end up overlapping: the constructor computes the groups
7 and 12 and gives all three flags the mask 7. -/
def overlappingFlags : List arg_val_t :=
  [⟨"a", 3⟩, ⟨"b", 12⟩, ⟨"c", 6⟩]

/-- A flag list with an independent flag (4) next to a bit group (1 and 3, mask 3). -/
def isolatedFlags : List arg_val_t :=
  [⟨"a", 4⟩, ⟨"b", 1⟩, ⟨"c", 3⟩]

/-- A flag list with two flags of the same value. -/
def duplicateFlags : List arg_val_t :=
  [⟨"a", 1⟩, ⟨"b", 1⟩]

/-- A flag list in which the value 10 bridges the two bit groups started by 3 and 12. -/
def bridgedFlags : List arg_val_t :=
  [⟨"d", 4⟩, ⟨"a", 3⟩, ⟨"b", 12⟩, ⟨"c", 10⟩]

/-- A flag list with two flags of value 0 in a row. -/
def zeroFlags : List arg_val_t :=
  [⟨"a", 0⟩, ⟨"b", 0⟩, ⟨"c", 3⟩]

/-- A single special, number 5 and name "X", without a group path. -/
def ungroupedSpecials : List as_t :=
  [⟨5, ['X'], []⟩]

/-- The flag list of the example of the specification. -/
def exampleFlags : List arg_val_t :=
  [⟨"None", 0⟩, ⟨"Low", 1⟩, ⟨"Medium", 2⟩, ⟨"High", 3⟩]

/-! ## Bitwise operations: bit-level characterisation -/

theorem natAndNot_eq_ldiff (m n : Nat) : natAndNot m n = Nat.ldiff m n := by
  apply Nat.eq_of_testBit_eq
  intro k
  simp only [natAndNot, Nat.testBit_xor, Nat.testBit_and, Nat.testBit_ldiff]
  cases m.testBit k <;> cases n.testBit k <;> rfl

theorem bitand_eq_land (a b : Int) : bitand a b = Int.land a b := by
  cases a <;> cases b <;> simp [bitand, Int.land, natAndNot_eq_ldiff]

theorem bitor_eq_lor (a b : Int) : bitor a b = Int.lor a b := by
  cases a <;> cases b <;> simp [bitor, Int.lor, natAndNot_eq_ldiff]

theorem bitnot_eq_lnot (a : Int) : bitnot a = Int.lnot a := by
  cases a <;> rfl

theorem testBit_bitand (a b : Int) (k : Nat) :
    (bitand a b).testBit k = (a.testBit k && b.testBit k) := by
  rw [bitand_eq_land]; exact Int.testBit_land a b k

theorem testBit_bitor (a b : Int) (k : Nat) :
    (bitor a b).testBit k = (a.testBit k || b.testBit k) := by
  rw [bitor_eq_lor]; exact Int.testBit_lor a b k

theorem testBit_bitnot (a : Int) (k : Nat) : (bitnot a).testBit k = !a.testBit k := by
  rw [bitnot_eq_lnot]; exact Int.testBit_lnot a k

theorem testBit_zero_int (k : Nat) : (0 : Int).testBit k = false := by
  show Int.testBit (Int.ofNat 0) k = false
  simp [Int.testBit]

/-- Two integers with the same bits are equal. -/
theorem eq_of_testBit_eq (a b : Int) (h : ∀ k, a.testBit k = b.testBit k) : a = b := by
  cases a with
  | ofNat m =>
    cases b with
    | ofNat n =>
      have : m = n := Nat.eq_of_testBit_eq (fun k => by simpa [Int.testBit] using h k)
      rw [this]
    | negSucc n =>
      exfalso
      have h1 := h (m + n)
      have hm : m.testBit (m + n) = false :=
        Nat.testBit_lt_two_pow (lt_of_lt_of_le (Nat.lt_two_pow m)
          (Nat.pow_le_pow_right (by decide) (Nat.le_add_right m n)))
      have hn : n.testBit (m + n) = false :=
        Nat.testBit_lt_two_pow (lt_of_lt_of_le (Nat.lt_two_pow n)
          (Nat.pow_le_pow_right (by decide) (Nat.le_add_left n m)))
      simp [Int.testBit, hm, hn] at h1
  | negSucc m =>
    cases b with
    | ofNat n =>
      exfalso
      have h1 := h (m + n)
      have hm : m.testBit (m + n) = false :=
        Nat.testBit_lt_two_pow (lt_of_lt_of_le (Nat.lt_two_pow m)
          (Nat.pow_le_pow_right (by decide) (Nat.le_add_right m n)))
      have hn : n.testBit (m + n) = false :=
        Nat.testBit_lt_two_pow (lt_of_lt_of_le (Nat.lt_two_pow n)
          (Nat.pow_le_pow_right (by decide) (Nat.le_add_left n m)))
      simp [Int.testBit, hm, hn] at h1
    | negSucc n =>
      have : m = n := Nat.eq_of_testBit_eq (fun k => by simpa [Int.testBit] using h k)
      rw [this]

theorem bitand_eq_zero_iff (a b : Int) :
    bitand a b = 0 ↔ ∀ k, a.testBit k = true → b.testBit k = false := by
  constructor
  · intro h k hk
    have := testBit_bitand a b k
    rw [h, testBit_zero_int, hk] at this
    simpa using this.symm
  · intro h
    apply eq_of_testBit_eq
    intro k
    rw [testBit_bitand, testBit_zero_int]
    cases hk : a.testBit k
    · rfl
    · simp [h k hk]

theorem bitand_nonneg (a b : Int) (ha : 0 ≤ a) : 0 ≤ bitand a b := by
  cases a with
  | ofNat m => cases b <;> simp [bitand]
  | negSucc m => exact absurd ha (by simp)

theorem bitor_nonneg (a b : Int) (ha : 0 ≤ a) (hb : 0 ≤ b) : 0 ≤ bitor a b := by
  cases a with
  | ofNat m =>
    cases b with
    | ofNat n => simp [bitor]
    | negSucc n => exact absurd hb (by simp)
  | negSucc m => exact absurd ha (by simp)

/-- A non-negative integer is below `2 ^ n` iff it has no bit at position `n` or above. -/
theorem lt_two_pow_iff_testBit (a : Int) (ha : 0 ≤ a) (n : Nat) :
    a < 2 ^ n ↔ ∀ i, n ≤ i → a.testBit i = false := by
  cases a with
  | ofNat m =>
    simp only [Int.ofNat_eq_coe, Int.testBit]
    constructor
    · intro h i hi
      have hm : m < 2 ^ n := by exact_mod_cast h
      exact Nat.testBit_lt_two_pow (lt_of_lt_of_le hm (Nat.pow_le_pow_right (by decide) hi))
    · intro h
      have hm : m < 2 ^ n := Nat.lt_pow_two_of_testBit m h
      exact_mod_cast hm
  | negSucc m => exact absurd ha (by simp)

theorem bitand_lt_two_pow (a b : Int) (n : Nat) (ha : 0 ≤ a) (h : a < 2 ^ n) :
    bitand a b < 2 ^ n := by
  rw [lt_two_pow_iff_testBit _ (bitand_nonneg a b ha)]
  intro i hi
  rw [testBit_bitand, (lt_two_pow_iff_testBit a ha n).1 h i hi]
  rfl

theorem bitor_lt_two_pow (a b : Int) (n : Nat) (ha : 0 ≤ a) (hb : 0 ≤ b) (h : a < 2 ^ n)
    (h' : b < 2 ^ n) : bitor a b < 2 ^ n := by
  rw [lt_two_pow_iff_testBit _ (bitor_nonneg a b ha hb)]
  intro i hi
  rw [testBit_bitor, (lt_two_pow_iff_testBit a ha n).1 h i hi,
    (lt_two_pow_iff_testBit b hb n).1 h' i hi]
  rfl

/-! ## Decimal formatting and parsing -/

theorem digitChar_facts : ∀ d, d < 10 →
    (Nat.digitChar d).isDigit = true ∧ (Nat.digitChar d).toNat - 48 = d ∧
    isSpace (Nat.digitChar d) = false ∧ Nat.digitChar d ≠ '-' ∧ Nat.digitChar d ≠ '+' := by
  decide

/-- Parsing the digits `toDigitsCore` puts in front of `acc` yields the number formatted. -/
theorem parseDigits_toDigitsCore (fuel : Nat) : ∀ (n : Nat) (acc : List Char) (count : Nat),
    n < fuel → ∃ len, 0 < len ∧
      parseDigits (Nat.toDigitsCore 10 fuel n acc) count 0 = parseDigits acc (count + len) n := by
  induction fuel with
  | zero => intro n acc count h; omega
  | succ f ih =>
    intro n acc count h
    have hd := digitChar_facts (n % 10) (Nat.mod_lt n (by decide))
    by_cases h0 : n / 10 = 0
    · refine ⟨1, by decide, ?_⟩
      have hn : n % 10 = n := Nat.mod_eq_of_lt (by omega)
      simp only [Nat.toDigitsCore, h0, if_true, parseDigits, hd.1, hd.2.1]
      rw [hn]; simp
    · obtain ⟨len, hlen, hp⟩ := ih (n / 10) (Nat.digitChar (n % 10) :: acc) count (by omega)
      refine ⟨len + 1, by omega, ?_⟩
      simp only [Nat.toDigitsCore, h0, if_false]
      rw [hp]
      simp only [parseDigits, hd.1, hd.2.1, if_true]
      have : n / 10 * 10 + n % 10 = n := by omega
      rw [this, Nat.add_assoc]

/-- The output of `toDigitsCore` starts with a digit character. -/
theorem toDigitsCore_head (fuel : Nat) : ∀ (n : Nat) (acc : List Char),
    (0 < fuel ∨ ∃ d rest, d < 10 ∧ acc = Nat.digitChar d :: rest) →
    ∃ d rest, d < 10 ∧ Nat.toDigitsCore 10 fuel n acc = Nat.digitChar d :: rest := by
  induction fuel with
  | zero =>
    intro n acc h
    rcases h with h | h
    · omega
    · simpa [Nat.toDigitsCore] using h
  | succ f ih =>
    intro n acc _
    by_cases h0 : n / 10 = 0
    · exact ⟨n % 10, acc, Nat.mod_lt n (by decide), by simp [Nat.toDigitsCore, h0]⟩
    · obtain ⟨d, rest, hd, hr⟩ := ih (n / 10) (Nat.digitChar (n % 10) :: acc)
        (Or.inr ⟨n % 10, acc, Nat.mod_lt n (by decide), rfl⟩)
      exact ⟨d, rest, hd, by simp [Nat.toDigitsCore, h0, hr]⟩

/-- `ToLong` reads back what `%ld` printed for a non-negative `long`. -/
theorem ToLong_fmtLong (v : Int) (h0 : 0 ≤ v) (h1 : v ≤ LONG_MAX) :
    ToLong (fmtLong v) = some v ∧ fmtLong v ≠ [] := by
  cases v with
  | negSucc m => exact absurd h0 (by simp)
  | ofNat n =>
    obtain ⟨d, rest, hd, hr⟩ := toDigitsCore_head (n + 1) n [] (Or.inl (by omega))
    obtain ⟨len, hlen, hp⟩ := parseDigits_toDigitsCore (n + 1) n [] 0 (by omega)
    have hf := digitChar_facts d hd
    have hfmt : fmtLong (Int.ofNat n) = Nat.digitChar d :: rest := by
      simp only [fmtLong, Nat.toDigits]; exact hr
    have hp' : parseDigits (Nat.digitChar d :: rest) 0 0 = (0 + len, n) := by
      rw [← hr, hp]; rfl
    refine ⟨?_, by rw [hfmt]; simp⟩
    have hdrop : List.dropWhile isSpace (Nat.digitChar d :: rest) = Nat.digitChar d :: rest := by
      simp [List.dropWhile, hf.2.2.1]
    have hps : parseSigned (Nat.digitChar d :: rest) = some (n : Int) := by
      simp only [parseSigned, hf.2.2.2.1, hf.2.2.2.2, if_false, hp']
      have : ¬ (len = 0) := by omega
      simp [this]
    have hrange : - LONG_MAX - 1 ≤ (n : Int) ∧ (n : Int) ≤ LONG_MAX := by
      constructor
      · have : (0 : Int) ≤ (n : Int) := Int.ofNat_nonneg n
        simp only [LONG_MAX] at *
        omega
      · exact h1
    rw [hfmt]
    simp only [ToLong, hdrop, hps]
    simp [hrange]

namespace ArgsTextControl

/-- Reading the text box after `setArgValue v` with `0 <= v` gives `v` back. -/
theorem getArgValue_setArgValue_nonneg (v : Int) (h0 : 0 ≤ v) (h1 : v ≤ LONG_MAX) :
    getArgValue (setArgValue v) = some v := by
  have h := ToLong_fmtLong v h0 h1
  have hv : ¬ v < 0 := by omega
  simp only [getArgValue, setArgValue, hv, if_false, h.2, h.1]

/-- A negative value empties the text box, which reads as -1. -/
theorem getArgValue_setArgValue_neg (v : Int) (h : v < 0) :
    setArgValue v = [] ∧ getArgValue (setArgValue v) = some (-1) := by
  simp [getArgValue, setArgValue, h]

end ArgsTextControl

/-! ## The constructor: the `bit_groups` pass -/

namespace ArgsFlagsControl

theorem pow2_nat (m : Nat) (h : (m + 1) &&& m = 0) : ∃ k, m + 1 = 2 ^ k := by
  refine ⟨Nat.log 2 (m + 1), ?_⟩
  have h1 : 2 ^ Nat.log 2 (m + 1) ≤ m + 1 := Nat.pow_log_le_self 2 (by omega)
  have h2 : m + 1 < 2 ^ (Nat.log 2 (m + 1) + 1) := Nat.lt_pow_succ_log_self (by decide) _
  by_contra hne
  set k := Nat.log 2 (m + 1) with hk
  have hb : ∀ x, 2 ^ k ≤ x → x < 2 ^ (k + 1) → x.testBit k = true := by
    intro x hx1 hx2
    obtain ⟨y, rfl⟩ : ∃ y, x = 2 ^ k + y := ⟨x - 2 ^ k, by omega⟩
    rw [Nat.testBit_two_pow_add_eq]
    have : y < 2 ^ k := by rw [pow_succ] at hx2; omega
    simp [Nat.testBit_lt_two_pow this]
  have e1 := hb (m + 1) h1 h2
  have e2 := hb m (by omega) (by omega)
  have := congrArg (fun x => x.testBit k) h
  simp [Nat.testBit_and, e1, e2] at this

/-- A value `isPowerOfTwo` accepts is 0 or has exactly one bit, and is not negative. -/
theorem isPowerOfTwo_cases (n : Int) (h : isPowerOfTwo n = true) :
    0 ≤ n ∧ (n = 0 ∨ ∃ k0, ∀ k, n.testBit k = decide (k0 = k)) := by
  simp only [isPowerOfTwo, beq_iff_eq] at h
  cases n with
  | ofNat m =>
    refine ⟨Int.ofNat_nonneg m, ?_⟩
    cases m with
    | zero => left; rfl
    | succ m =>
      right
      have e : Int.ofNat (m + 1) - 1 = Int.ofNat m := by
        simp only [Int.ofNat_eq_coe]; push_cast; ring
      rw [e] at h
      simp only [bitand] at h
      have h' : (m + 1) &&& m = 0 := by
        have : ((((m + 1) &&& m : Nat)) : Int) = ((0 : Nat) : Int) := h
        exact_mod_cast this
      obtain ⟨k0, hk0⟩ := pow2_nat m h'
      refine ⟨k0, fun k => ?_⟩
      simp only [Int.testBit, hk0, Nat.testBit_two_pow]
  | negSucc m =>
    exfalso
    have e : Int.negSucc m - 1 = Int.negSucc (m + 1) := by
      simp only [Int.negSucc_eq]; push_cast; ring
    rw [e] at h
    simp [bitand] at h

theorem exists_testBit_of_ne_zero (v : Int) (h : v ≠ 0) : ∃ k, v.testBit k = true := by
  by_contra hcon
  push_neg at hcon
  apply h
  apply eq_of_testBit_eq
  intro k
  rw [testBit_zero_int]
  simpa using hcon k

theorem bitand_ne_zero_of_common_bit (a b : Int) (k : Nat) (ha : a.testBit k = true)
    (hb : b.testBit k = true) : bitand a b ≠ 0 := by
  intro h
  have := (bitand_eq_zero_iff a b).1 h k ha
  rw [hb] at this
  exact Bool.noConfusion this

theorem exists_common_bit (a b : Int) (h : bitand a b ≠ 0) :
    ∃ k, a.testBit k = true ∧ b.testBit k = true := by
  obtain ⟨k, hk⟩ := exists_testBit_of_ne_zero _ h
  rw [testBit_bitand] at hk
  exact ⟨k, by simpa using hk⟩

theorem Covered_mono_cons (g g' : Int) (gs : List Int) (v : Int) (hg : BitsWithin g g')
    (h : Covered (g :: gs) v) : Covered (g' :: gs) v := by
  obtain ⟨x, hx, hv⟩ := h
  rcases List.mem_cons.1 hx with rfl | hx
  · exact ⟨g', List.mem_cons_self _ _, fun k hk => hg k (hv k hk)⟩
  · exact ⟨x, List.mem_cons_of_mem _ hx, hv⟩

/-- A successful merge covers the merged value and keeps everything covered. -/
theorem mergeBitGroup_some (value : Int) : ∀ (bit_groups merged : List Int),
    mergeBitGroup value bit_groups = some merged →
    Covered merged value ∧ ∀ v, Covered bit_groups v → Covered merged v := by
  intro bit_groups
  induction bit_groups with
  | nil => intro merged h; simp [mergeBitGroup] at h
  | cons g gs ih =>
    intro merged h
    simp only [mergeBitGroup] at h
    split at h
    · simp only [Option.some.injEq] at h
      subst h
      refine ⟨⟨bitor g value, List.mem_cons_self _ _, fun k hk => ?_⟩, fun v hv => ?_⟩
      · rw [testBit_bitor, hk]; simp
      · exact Covered_mono_cons g _ gs v (fun k hk => by rw [testBit_bitor, hk]; simp) hv
    · cases hm : mergeBitGroup value gs with
      | none => rw [hm] at h; simp at h
      | some gs' =>
        rw [hm] at h
        simp only [Option.map_some', Option.some.injEq] at h
        subst h
        obtain ⟨h1, h2⟩ := ih gs' hm
        refine ⟨?_, fun v hv => ?_⟩
        · obtain ⟨x, hx, hxv⟩ := h1
          exact ⟨x, List.mem_cons_of_mem _ hx, hxv⟩
        · obtain ⟨x, hx, hxv⟩ := hv
          rcases List.mem_cons.1 hx with rfl | hx
          · exact ⟨x, List.mem_cons_self _ _, hxv⟩
          · obtain ⟨y, hy, hyv⟩ := h2 v ⟨x, hx, hxv⟩
            exact ⟨y, List.mem_cons_of_mem _ hy, hyv⟩

theorem bitGroupsStep_mono (bit_groups : List Int) (flag : arg_val_t) (v : Int)
    (h : Covered bit_groups v) : Covered (bitGroupsStep bit_groups flag) v := by
  simp only [bitGroupsStep]
  split
  · exact h
  · split
    · next merged hm => exact (mergeBitGroup_some _ _ _ hm).2 v h
    · obtain ⟨x, hx, hxv⟩ := h
      exact ⟨x, List.mem_append_left _ hx, hxv⟩

theorem bitGroupsStep_new (bit_groups : List Int) (flag : arg_val_t)
    (h : isPowerOfTwo flag.value = false) :
    Covered (bitGroupsStep bit_groups flag) flag.value := by
  simp only [bitGroupsStep, h, Bool.false_eq_true, if_false]
  split
  · next merged hm => exact (mergeBitGroup_some _ _ _ hm).1
  · exact ⟨flag.value, by simp, fun k hk => hk⟩

theorem foldl_bitGroupsStep_mono (flags : List arg_val_t) : ∀ (bit_groups : List Int) (v : Int),
    Covered bit_groups v → Covered (flags.foldl bitGroupsStep bit_groups) v := by
  induction flags with
  | nil => intro bg v h; exact h
  | cons f fs ih =>
    intro bg v h
    rw [List.foldl_cons]
    exact ih _ v (bitGroupsStep_mono bg f v h)

theorem foldl_bitGroupsStep_covers (flags : List arg_val_t) : ∀ (bit_groups : List Int)
    (f : arg_val_t), f ∈ flags → isPowerOfTwo f.value = false →
    Covered (flags.foldl bitGroupsStep bit_groups) f.value := by
  induction flags with
  | nil => intro bg f hf; simp at hf
  | cons f0 fs ih =>
    intro bg f hf hp
    rw [List.foldl_cons]
    rcases List.mem_cons.1 hf with rfl | hf
    · exact foldl_bitGroupsStep_mono fs _ _ (bitGroupsStep_new bg f hp)
    · exact ih _ f hf hp

theorem flagValue_of_lt (flags : List arg_val_t) (i : Nat) (hi : i < flags.length) :
    ∃ f ∈ flags, flagValue flags i = f.value := by
  refine ⟨flags[i], List.getElem_mem _, ?_⟩
  simp [flagValue, List.getElem?_eq_getElem hi]

/-- Every flag value that is not a power of two lies within one of the bit groups the
constructor computes. -/
theorem bitGroups_covers (flags : List arg_val_t) (i : Nat) (hi : i < flags.length)
    (hp : isPowerOfTwo (flagValue flags i) = false) :
    Covered (bitGroups flags) (flagValue flags i) := by
  obtain ⟨f, hf, hv⟩ := flagValue_of_lt flags i hi
  rw [hv] at hp ⊢
  exact foldl_bitGroupsStep_covers flags [] f hf hp

end ArgsFlagsControl

/-! ## The constructor: the control pass -/

namespace ArgsFlagsControl

theorem groupMask_set_ne (l : List Int) (i j : Nat) (x : Int) (h : i ≠ j) :
    groupMask (l.set i x) j = groupMask l j := by
  simp only [groupMask, List.getElem?_set_ne h]

theorem groupMask_set_self (l : List Int) (i : Nat) (x : Int) (h : i < l.length) :
    groupMask (l.set i x) i = x := by
  simp only [groupMask, List.getElem?_set_self h]

theorem groupMask_of_ge (l : List Int) (i : Nat) (h : l.length ≤ i) : groupMask l i = 0 := by
  simp only [groupMask, List.getElem?_eq_none h]

theorem isDone_set_ne (l : List Bool) (i j : Nat) (x : Bool) (h : i ≠ j) :
    isDone (l.set i x) j = isDone l j := by
  simp only [isDone, List.getElem?_set_ne h]

theorem isDone_of_ge (l : List Bool) (i : Nat) (h : l.length ≤ i) : isDone l i = false := by
  simp only [isDone, List.getElem?_eq_none h]

theorem bitand_zero_left (a : Int) : bitand 0 a = 0 := by
  rw [bitand_eq_zero_iff]
  intro k hk
  rw [testBit_zero_int] at hk
  exact Bool.noConfusion hk

theorem findGroup_eq_zero (bit_groups : List Int) (check_against : Int)
    (h : findGroup bit_groups check_against = 0) :
    ∀ g ∈ bit_groups, bitand g check_against = 0 := by
  induction bit_groups with
  | nil => intro g hg; simp at hg
  | cons g0 gs ih =>
    intro g hg
    simp only [findGroup] at h
    by_cases h0 : bitand g0 check_against ≠ 0
    · rw [if_pos h0] at h
      rw [h, bitand_zero_left] at h0
      exact absurd rfl h0
    · rw [if_neg h0] at h
      rcases List.mem_cons.1 hg with rfl | hg
      · exact not_not.1 h0
      · exact ih h g hg

theorem findGroup_ne_zero (bit_groups : List Int) (check_against : Int)
    (h : findGroup bit_groups check_against ≠ 0) :
    findGroup bit_groups check_against ∈ bit_groups ∧
      bitand (findGroup bit_groups check_against) check_against ≠ 0 := by
  induction bit_groups with
  | nil => simp [findGroup] at h
  | cons g0 gs ih =>
    simp only [findGroup] at h ⊢
    by_cases h0 : bitand g0 check_against ≠ 0
    · rw [if_pos h0]
      exact ⟨List.mem_cons_self _ _, h0⟩
    · rw [if_neg h0] at h ⊢
      exact ⟨List.mem_cons_of_mem _ (ih h).1, (ih h).2⟩

/-- One iteration over a later flag keeps the invariant. -/
theorem markLaterStep_inv (flags : List arg_val_t) (bit_groups : List Int) (group : Int)
    (m ii : Nat) (st : Controls) (hg0 : group ≠ 0) (hg : group ∈ bit_groups) (hm : m ≤ ii)
    (inv : PassInv flags bit_groups m st) :
    PassInv flags bit_groups m (markLaterStep flags group st ii) := by
  unfold markLaterStep
  by_cases hd : isDone st.flag_done ii = true
  · rw [if_pos hd]; exact inv
  · rw [if_neg hd]
    by_cases hb : bitand (flagValue flags ii) group ≠ 0
    · rw [if_pos hb]
      by_cases hii : ii < flags.length
      · have hlg : ii < st.flag_to_bit_group.length := inv.len_group ▸ hii
        refine ⟨by simp [addControl, inv.len_group], by simp [inv.len_done], ?_, ?_, ?_⟩
        · intro i hi
          by_cases e : ii = i
          · subst e
            simp only [addControl, groupMask_set_self _ _ _ hlg]
            exact hg0
          · simp only [addControl, groupMask_set_ne _ _ _ _ e]
            simp only [isDone_set_ne _ _ _ _ e] at hi
            exact inv.done_grouped i hi
        · intro i hi
          have e : ii ≠ i := by omega
          simp only [addControl, groupMask_set_ne _ _ _ _ e]
          exact inv.independent i hi
        · intro i
          by_cases e : ii = i
          · subst e
            simp only [addControl, groupMask_set_self _ _ _ hlg]
            exact fun _ => hg
          · simp only [addControl, groupMask_set_ne _ _ _ _ e]
            exact inv.mask_mem i
      · have e1 : st.flag_to_bit_group.set ii group = st.flag_to_bit_group :=
          List.set_eq_of_length_le (by rw [inv.len_group]; omega)
        have e2 : st.flag_done.set ii true = st.flag_done :=
          List.set_eq_of_length_le (by rw [inv.len_done]; omega)
        refine ⟨by simp [addControl, inv.len_group], by simp [inv.len_done], ?_, ?_, ?_⟩
        · intro i hi
          simp only [addControl, e1, e2] at hi ⊢
          exact inv.done_grouped i hi
        · intro i hi
          simp only [addControl, e1]
          exact inv.independent i hi
        · intro i
          simp only [addControl, e1]
          exact inv.mask_mem i
    · rw [if_neg hb]; exact inv

theorem foldl_markLaterStep_inv (flags : List arg_val_t) (bit_groups : List Int) (group : Int)
    (m : Nat) (hg0 : group ≠ 0) (hg : group ∈ bit_groups) :
    ∀ (l : List Nat) (st : Controls), (∀ ii ∈ l, m ≤ ii) → PassInv flags bit_groups m st →
      PassInv flags bit_groups m (l.foldl (markLaterStep flags group) st) := by
  intro l
  induction l with
  | nil => intro st _ inv; exact inv
  | cons ii l ih =>
    intro st hl inv
    rw [List.foldl_cons]
    exact ih _ (fun x hx => hl x (List.mem_cons_of_mem _ hx))
      (markLaterStep_inv flags bit_groups group m ii st hg0 hg
        (hl ii (List.mem_cons_self _ _)) inv)

/-- One iteration of the control pass keeps the invariant. -/
theorem controlStep_inv (flags : List arg_val_t) (bit_groups : List Int) (m : Nat)
    (st : Controls) (hm : m < flags.length) (inv : PassInv flags bit_groups m st) :
    PassInv flags bit_groups (m + 1) (controlStep flags bit_groups st m) := by
  have hlg : m < st.flag_to_bit_group.length := inv.len_group ▸ hm
  unfold controlStep
  by_cases hd : isDone st.flag_done m = true
  · rw [if_pos hd]
    refine ⟨inv.len_group, inv.len_done, inv.done_grouped, ?_, inv.mask_mem⟩
    intro i hi h0
    by_cases e : i = m
    · subst e; exact absurd h0 (inv.done_grouped i hd)
    · exact inv.independent i (by omega) h0
  · rw [if_neg hd]
    simp only []
    by_cases hgr : findGroup bit_groups (checkAgainst flags m) ≠ 0
    · rw [if_pos hgr]
      have hmem := (findGroup_ne_zero bit_groups _ hgr).1
      unfold markLater
      apply foldl_markLaterStep_inv flags bit_groups _ (m + 1) hgr hmem
      · intro ii hii
        rw [List.mem_range'_1] at hii
        exact hii.1
      · refine ⟨by simp [addControl, inv.len_group], by simp [addControl, inv.len_done],
          ?_, ?_, ?_⟩
        · intro i hi
          by_cases e : m = i
          · subst e
            simp only [addControl, groupMask_set_self _ _ _ hlg]
            exact hgr
          · simp only [addControl, groupMask_set_ne _ _ _ _ e]
            exact inv.done_grouped i hi
        · intro i hi h0
          by_cases e : m = i
          · subst e
            simp only [addControl, groupMask_set_self _ _ _ hlg] at h0
            exact absurd h0 hgr
          · simp only [addControl, groupMask_set_ne _ _ _ _ e] at h0
            exact inv.independent i (by omega) h0
        · intro i
          by_cases e : m = i
          · subst e
            simp only [addControl, groupMask_set_self _ _ _ hlg]
            exact fun _ => hmem
          · simp only [addControl, groupMask_set_ne _ _ _ _ e]
            exact inv.mask_mem i
    · rw [if_neg hgr]
      refine ⟨by simp [addControl, inv.len_group], by simp [addControl, inv.len_done],
        ?_, ?_, ?_⟩
      · intro i hi
        by_cases e : m = i
        · subst e
          exact absurd hi hd
        · simp only [addControl, groupMask_set_ne _ _ _ _ e]
          exact inv.done_grouped i hi
      · intro i hi h0
        by_cases e : m = i
        · subst e
          exact not_not.1 hgr
        · simp only [addControl, groupMask_set_ne _ _ _ _ e] at h0
          exact inv.independent i (by omega) h0
      · intro i
        by_cases e : m = i
        · subst e
          simp only [addControl, groupMask_set_self _ _ _ hlg]
          exact fun h => absurd rfl h
        · simp only [addControl, groupMask_set_ne _ _ _ _ e]
          exact inv.mask_mem i

theorem foldl_controlStep_inv (flags : List arg_val_t) (bit_groups : List Int) (st : Controls)
    (inv : PassInv flags bit_groups 0 st) :
    ∀ m, m ≤ flags.length →
      PassInv flags bit_groups m ((List.range m).foldl (controlStep flags bit_groups) st) := by
  intro m
  induction m with
  | zero => intro _; exact inv
  | succ m ih =>
    intro hm
    rw [List.range_succ, List.foldl_append, List.foldl_cons, List.foldl_nil]
    exact controlStep_inv flags bit_groups m _ (by omega) (ih (by omega))

/-- The invariant holds of the constructed control. -/
theorem construct_inv (flags : List arg_val_t) :
    PassInv flags (bitGroups flags) flags.length (construct flags) := by
  unfold construct
  apply foldl_controlStep_inv flags (bitGroups flags) _ _ flags.length (le_refl _)
  refine ⟨by simp, by simp, ?_, ?_, ?_⟩
  · intro i hi
    simp [isDone, List.getElem?_replicate] at hi
    split at hi <;> simp_all
  · intro i hi; omega
  · intro i hi
    exfalso
    apply hi
    simp only [groupMask, List.getElem?_replicate]
    split <;> simp_all

/-- An independent flag shares no bit with any bit group (through the value it is checked
against). -/
theorem independent_findGroup (flags : List arg_val_t) (i : Nat) (hi : i < flags.length)
    (h0 : groupMask (flagToBitGroup flags) i = 0) :
    ∀ g ∈ bitGroups flags, bitand g (checkAgainst flags i) = 0 :=
  findGroup_eq_zero _ _ ((construct_inv flags).independent i hi h0)

/-- Every non-zero group mask is one of the computed bit groups. -/
theorem groupMask_mem_bitGroups (flags : List arg_val_t) (i : Nat)
    (h : groupMask (flagToBitGroup flags) i ≠ 0) :
    groupMask (flagToBitGroup flags) i ∈ bitGroups flags :=
  (construct_inv flags).mask_mem i h

theorem flagToBitGroup_length (flags : List arg_val_t) :
    (flagToBitGroup flags).length = flags.length :=
  (construct_inv flags).len_group

/-- A flag that is not a power of two is never independent. -/
theorem independent_isPowerOfTwo (flags : List arg_val_t) (i : Nat) (hi : i < flags.length)
    (h0 : groupMask (flagToBitGroup flags) i = 0) :
    isPowerOfTwo (flagValue flags i) = true := by
  cases hp : isPowerOfTwo (flagValue flags i) with
  | true => rfl
  | false =>
    exfalso
    have hv : flagValue flags i ≠ 0 := by
      intro h; rw [h] at hp; exact absurd hp (by decide)
    have hca : checkAgainst flags i = flagValue flags i := by
      simp [checkAgainst, hv]
    have hfg := independent_findGroup flags i hi h0
    rw [hca] at hfg
    obtain ⟨g, hg, hsub⟩ := bitGroups_covers flags i hi hp
    obtain ⟨k, hk⟩ := exists_testBit_of_ne_zero _ hv
    exact bitand_ne_zero_of_common_bit g _ k (hsub k hk) hk (hfg g hg)

theorem independent_nonneg (flags : List arg_val_t) (i : Nat) (hi : i < flags.length)
    (h0 : groupMask (flagToBitGroup flags) i = 0) : 0 ≤ flagValue flags i :=
  (isPowerOfTwo_cases _ (independent_isPowerOfTwo flags i hi h0)).1

/-- An independent flag with a non-zero value has exactly one bit, and that bit lies in no
bit group. -/
theorem independent_single_bit (flags : List arg_val_t) (i : Nat) (hi : i < flags.length)
    (h0 : groupMask (flagToBitGroup flags) i = 0) (hv : flagValue flags i ≠ 0) :
    ∃ k0, (∀ k, (flagValue flags i).testBit k = decide (k0 = k)) ∧
      ∀ g ∈ bitGroups flags, g.testBit k0 = false := by
  have hca : checkAgainst flags i = flagValue flags i := by
    simp [checkAgainst, hv]
  have hfg := independent_findGroup flags i hi h0
  rw [hca] at hfg
  rcases (isPowerOfTwo_cases _ (independent_isPowerOfTwo flags i hi h0)).2 with h | ⟨k0, hk0⟩
  · exact absurd h hv
  · refine ⟨k0, hk0, fun g hg => ?_⟩
    have hk : (flagValue flags i).testBit k0 = true := by rw [hk0]; simp
    cases hgk : g.testBit k0 with
    | false => rfl
    | true => exact absurd (hfg g hg) (bitand_ne_zero_of_common_bit g _ k0 hgk hk)

/-- The bit of an independent flag belongs to no flag with a different value, to no bit
group and to no group mask. -/
theorem independent_bit_private (flags : List arg_val_t) (i : Nat) (hi : i < flags.length)
    (h0 : groupMask (flagToBitGroup flags) i = 0) (k : Nat)
    (hk : (flagValue flags i).testBit k = true) :
    (∀ j, j < flags.length → flagValue flags j ≠ flagValue flags i →
      (flagValue flags j).testBit k = false) ∧
    (∀ g ∈ bitGroups flags, g.testBit k = false) ∧
    (∀ j, (groupMask (flagToBitGroup flags) j).testBit k = false) := by
  have hv : flagValue flags i ≠ 0 := by
    intro h; rw [h, testBit_zero_int] at hk; exact Bool.noConfusion hk
  obtain ⟨k0, hk0, hfree⟩ := independent_single_bit flags i hi h0 hv
  have hkk : k0 = k := by simpa [hk0] using hk
  subst hkk
  refine ⟨fun j hj hne => ?_, hfree, fun j => ?_⟩
  · cases hjk : (flagValue flags j).testBit k0 with
    | false => rfl
    | true =>
      exfalso
      cases hp : isPowerOfTwo (flagValue flags j) with
      | false =>
        obtain ⟨g, hg, hsub⟩ := bitGroups_covers flags j hj hp
        have := hfree g hg
        rw [hsub k0 hjk] at this
        exact Bool.noConfusion this
      | true =>
        rcases (isPowerOfTwo_cases _ hp).2 with h | ⟨k1, hk1⟩
        · rw [h, testBit_zero_int] at hjk; exact Bool.noConfusion hjk
        · have e : k1 = k0 := by simpa [hk1] using hjk
          subst e
          exact hne (eq_of_testBit_eq _ _ (fun k => by rw [hk0, hk1]))
  · by_cases hg : groupMask (flagToBitGroup flags) j = 0
    · rw [hg, testBit_zero_int]
    · exact hfree _ (groupMask_mem_bitGroups flags j hg)

end ArgsFlagsControl

/-! ## ArgsFlagsControl: decoding and toggling -/

namespace ArgsFlagsControl

theorem updateCheckState_length (flags : List arg_val_t) (groups : List Int) (val : Int) :
    (updateCheckState flags groups val).length = flags.length := by
  simp [updateCheckState]

theorem updateCheckState_getElem? (flags : List arg_val_t) (groups : List Int) (val : Int)
    (i : Nat) (hi : i < flags.length) :
    (updateCheckState flags groups val)[i]? =
      some (checkState val (flagValue flags i) (groupMask groups i)) := by
  simp [updateCheckState, List.getElem?_map, List.getElem?_range hi]

theorem toInt_of_range (v : Int) (h0 : 0 ≤ v) (h1 : v ≤ INT_MAX) : toInt v = v := by
  simp only [INT_MAX] at h1
  simp only [toInt]
  omega

theorem le_INT_MAX_iff (v : Int) : v ≤ INT_MAX ↔ v < 2 ^ 31 := by
  simp only [INT_MAX]
  norm_num
  omega

/-- The two cases of the value a toggle computes. -/
theorem toggledValue_cases (flags : List arg_val_t) (groups : List Int) (val : Int) (i : Nat)
    (isChecked : Bool) :
    ∃ m, (m = groupMask groups i ∨ m = flagValue flags i) ∧
      (groupMask groups i ≠ 0 → m = groupMask groups i) ∧
      (groupMask groups i = 0 → m = flagValue flags i) ∧
      toggledValue flags groups val i isChecked =
        if isChecked then bitor (bitand val (bitnot m)) (flagValue flags i)
        else bitand val (bitnot m) := by
  by_cases hg : groupMask groups i = 0
  · refine ⟨flagValue flags i, Or.inr rfl, fun h => absurd hg h, fun _ => rfl, ?_⟩
    simp only [toggledValue]
    rw [if_neg (not_not.2 hg)]
  · refine ⟨groupMask groups i, Or.inl rfl, fun _ => rfl, fun h => absurd h hg, ?_⟩
    simp only [toggledValue]
    rw [if_pos hg]

/-- The value a toggle computes stays a non-negative `int` when the flag value is one. -/
theorem toggledValue_range (flags : List arg_val_t) (groups : List Int) (val : Int) (i : Nat)
    (isChecked : Bool) (h0 : 0 ≤ val) (h1 : val ≤ INT_MAX) (hf0 : 0 ≤ flagValue flags i)
    (hf1 : flagValue flags i ≤ INT_MAX) :
    0 ≤ toggledValue flags groups val i isChecked ∧
      toggledValue flags groups val i isChecked ≤ INT_MAX := by
  rw [le_INT_MAX_iff] at *
  obtain ⟨m, _, _, _, hm⟩ := toggledValue_cases flags groups val i isChecked
  rw [hm]
  have a1 := bitand_nonneg val (bitnot m) h0
  have b1 := bitand_lt_two_pow val (bitnot m) 31 h0 h1
  cases isChecked
  · exact ⟨a1, b1⟩
  · exact ⟨bitor_nonneg _ _ a1 hf0, bitor_lt_two_pow _ _ 31 a1 hf0 b1 hf1⟩

/-- Bits outside the toggled flag's value and group mask are the bits of the old value. -/
theorem toggledValue_testBit (flags : List arg_val_t) (groups : List Int) (val : Int)
    (i : Nat) (isChecked : Bool) (k : Nat) (hv : (flagValue flags i).testBit k = false)
    (hg : (groupMask groups i).testBit k = false) :
    (toggledValue flags groups val i isChecked).testBit k = val.testBit k := by
  obtain ⟨m, hm1, _, _, hm⟩ := toggledValue_cases flags groups val i isChecked
  have hmk : m.testBit k = false := by
    rcases hm1 with h | h <;> rw [h] <;> assumption
  rw [hm]
  cases isChecked <;> simp [testBit_bitor, testBit_bitand, testBit_bitnot, hv, hmk]

theorem toInt_le_INT_MAX (v : Int) : toInt v ≤ INT_MAX := by
  simp only [INT_MAX, toInt]
  omega

/-- What `onCheck` does when the `int` it reads from the text box is not negative. -/
theorem onCheck_of_nonneg (flags : List arg_val_t) (groups : List Int) (text_control : wxString)
    (i : Nat) (isChecked : Bool) (v : Int)
    (hval : ArgsTextControl.getArgValue text_control = some v) (h0 : 0 ≤ toInt v)
    (hi : i < flags.length) :
    onCheck flags groups text_control i isChecked =
      some (ArgsTextControl.setArgValue (toggledValue flags groups (toInt v) i isChecked)) := by
  have hneg : ¬ toInt v < 0 := by omega
  simp [onCheck, hval, hneg, hi]

/-- What `onCheck` does on a text box holding a non-negative `int`. -/
theorem onCheck_eq (flags : List arg_val_t) (groups : List Int) (text_control : wxString)
    (i : Nat) (isChecked : Bool) (val : Int)
    (hval : ArgsTextControl.getArgValue text_control = some val) (h0 : 0 ≤ val)
    (h1 : val ≤ INT_MAX) (hi : i < flags.length) :
    onCheck flags groups text_control i isChecked =
      some (ArgsTextControl.setArgValue (toggledValue flags groups val i isChecked)) := by
  have hneg : ¬ val < 0 := by omega
  simp [onCheck, hval, toInt_of_range val h0 h1, hneg, hi]

theorem INT_MAX_le_LONG_MAX (v : Int) (h : v ≤ INT_MAX) : v ≤ LONG_MAX := by
  simp only [INT_MAX, LONG_MAX] at *
  omega

/-- C1. `updateCheckState`: the control of an independent flag (group mask 0) is set checked
iff `val >= 0` and `(val & flag.value) == flag.value`; the radio button of a grouped flag
(group mask `G` not 0) is set selected iff `val >= 0` and `(val & G) == flag.value`. -/
theorem updateCheckState_checked_iff (flags : List arg_val_t) (flag_to_bit_group : List Int)
    (val : Int) (i : Nat) (hi : i < flags.length) :
    ∃ checked, (updateCheckState flags flag_to_bit_group val)[i]? = some checked ∧
      (groupMask flag_to_bit_group i = 0 →
        (checked = true ↔
          val ≥ 0 ∧ bitand val (flagValue flags i) = flagValue flags i)) ∧
      (groupMask flag_to_bit_group i ≠ 0 →
        (checked = true ↔
          val ≥ 0 ∧ bitand val (groupMask flag_to_bit_group i) = flagValue flags i)) := by
  refine ⟨_, updateCheckState_getElem? flags flag_to_bit_group val i hi, ?_, ?_⟩
  · intro hg
    simp [checkState, hg]
  · intro hg
    simp [checkState, hg]

theorem updateCheckState_checked_iff_witness :
    ∃ checked, (updateCheckState [⟨"None", 0⟩, ⟨"Low", 1⟩, ⟨"Medium", 2⟩, ⟨"High", 3⟩]
        [3, 3, 3, 3] 2)[2]? = some checked ∧
      (groupMask [3, 3, 3, 3] 2 = 0 →
        (checked = true ↔ (2 : Int) ≥ 0 ∧
          bitand 2 (flagValue [⟨"None", 0⟩, ⟨"Low", 1⟩, ⟨"Medium", 2⟩, ⟨"High", 3⟩] 2) =
            flagValue [⟨"None", 0⟩, ⟨"Low", 1⟩, ⟨"Medium", 2⟩, ⟨"High", 3⟩] 2)) ∧
      (groupMask [3, 3, 3, 3] 2 ≠ 0 →
        (checked = true ↔ (2 : Int) ≥ 0 ∧
          bitand 2 (groupMask [3, 3, 3, 3] 2) =
            flagValue [⟨"None", 0⟩, ⟨"Low", 1⟩, ⟨"Medium", 2⟩, ⟨"High", 3⟩] 2)) :=
  updateCheckState_checked_iff exampleFlags [3, 3, 3, 3] 2 2 (by decide)

/-- C2. `onCheck` modifies the value in place: when the `int` value `val` it reads from
the text box is `>= 0` and the control of flag `i` is toggled to either state, the text box
is set to a value `r` that agrees with `val` on every bit that lies in neither
`flags[i].value` nor the group mask of control `i`; in particular on every bit that belongs
to no flag value and no group mask.  (The text box reads back as `r` whenever the flag
value is a non-negative `int`.) -/
theorem onCheck_preserves_other_bits (flags : List arg_val_t) (flag_to_bit_group : List Int)
    (text_control : wxString) (i : Nat) (isChecked : Bool) (v : Int)
    (hval : ArgsTextControl.getArgValue text_control = some v) (h0 : 0 ≤ toInt v)
    (hi : i < flags.length) :
    ∃ text' r, onCheck flags flag_to_bit_group text_control i isChecked = some text' ∧
      text' = ArgsTextControl.setArgValue r ∧
      (∀ k, (flagValue flags i).testBit k = false →
        (groupMask flag_to_bit_group i).testBit k = false →
        r.testBit k = (toInt v).testBit k) ∧
      (∀ k, (∀ j, (flagValue flags j).testBit k = false) →
        (∀ j, (groupMask flag_to_bit_group j).testBit k = false) →
        r.testBit k = (toInt v).testBit k) ∧
      (0 ≤ flagValue flags i → flagValue flags i ≤ INT_MAX →
        ArgsTextControl.getArgValue text' = some r) := by
  refine ⟨_, toggledValue flags flag_to_bit_group (toInt v) i isChecked,
    onCheck_of_nonneg flags flag_to_bit_group text_control i isChecked v hval h0 hi, rfl,
    ?_, ?_, ?_⟩
  · intro k hv hg
    exact toggledValue_testBit flags flag_to_bit_group (toInt v) i isChecked k hv hg
  · intro k hv hg
    exact toggledValue_testBit flags flag_to_bit_group (toInt v) i isChecked k (hv i) (hg i)
  · intro hf0 hf1
    have hr := toggledValue_range flags flag_to_bit_group (toInt v) i isChecked h0
      (toInt_le_INT_MAX v) hf0 hf1
    exact ArgsTextControl.getArgValue_setArgValue_nonneg _ hr.1 (INT_MAX_le_LONG_MAX _ hr.2)

/-- C5. Unset value: `updateCheckState(-1)` sets every control unchecked / unselected, and
toggling a control while `getArgValue()` is -1 (in particular while the text box is empty)
leaves the text, and so the unset value, as it is. -/
theorem unset_value (flags : List arg_val_t) (flag_to_bit_group : List Int)
    (text_control : wxString) (i : Nat) (isChecked : Bool)
    (hval : ArgsTextControl.getArgValue text_control = some (-1)) :
    updateCheckState flags flag_to_bit_group (-1) = List.replicate flags.length false ∧
      onCheck flags flag_to_bit_group text_control i isChecked = some text_control ∧
      ArgsTextControl.getArgValue [] = some (-1) ∧
      onCheck flags flag_to_bit_group [] i isChecked = some [] := by
  refine ⟨?_, ?_, by decide, ?_⟩
  · apply List.ext_getElem
    · simp [updateCheckState]
    · intro n h1 h2
      simp [updateCheckState, checkState]
  · have : toInt (-1) < 0 := by decide
    simp [onCheck, hval, this]
  · have h : ArgsTextControl.getArgValue [] = some (-1) := by decide
    have : toInt (-1) < 0 := by decide
    simp [onCheck, h, this]

/-- C6. Members of one bit group are mutually exclusive: `updateCheckState` never sets
selected two radio buttons with the same (non-zero) group mask and different flag values. -/
theorem group_members_exclusive (flags : List arg_val_t) (flag_to_bit_group : List Int)
    (val : Int) (i j : Nat) (hi : i < flags.length) (hj : j < flags.length)
    (hg : groupMask flag_to_bit_group i ≠ 0)
    (hsame : groupMask flag_to_bit_group i = groupMask flag_to_bit_group j)
    (hdiff : flagValue flags i ≠ flagValue flags j) :
    ¬ ((updateCheckState flags flag_to_bit_group val)[i]? = some true ∧
       (updateCheckState flags flag_to_bit_group val)[j]? = some true) := by
  rw [updateCheckState_getElem? flags flag_to_bit_group val i hi,
    updateCheckState_getElem? flags flag_to_bit_group val j hj]
  have hg' : groupMask flag_to_bit_group j ≠ 0 := hsame ▸ hg
  simp only [checkState, hg, hg', if_true, Option.some.injEq, Bool.and_eq_true,
    decide_eq_true_eq, beq_iff_eq, ne_eq, not_false_eq_true]
  rintro ⟨⟨_, h1⟩, ⟨_, h2⟩⟩
  apply hdiff
  rw [← h1, ← h2, hsame]

end ArgsFlagsControl

/-! ## Witnesses and the text control round trip -/

namespace ArgsFlagsControl

theorem onCheck_preserves_other_bits_witness :
    ∃ text' r, onCheck exampleFlags [3, 3, 3, 3] ['5'] 1 true = some text' ∧
      text' = ArgsTextControl.setArgValue r ∧
      (∀ k, (flagValue exampleFlags 1).testBit k = false →
        (groupMask [3, 3, 3, 3] 1).testBit k = false →
        r.testBit k = (toInt 5).testBit k) ∧
      (∀ k, (∀ j, (flagValue exampleFlags j).testBit k = false) →
        (∀ j, (groupMask [3, 3, 3, 3] j).testBit k = false) →
        r.testBit k = (toInt 5).testBit k) ∧
      (0 ≤ flagValue exampleFlags 1 → flagValue exampleFlags 1 ≤ INT_MAX →
        ArgsTextControl.getArgValue text' = some r) :=
  onCheck_preserves_other_bits exampleFlags [3, 3, 3, 3] ['5'] 1 true 5 (by decide) (by decide)
    (by decide)

theorem unset_value_witness :
    updateCheckState [⟨"None", 0⟩, ⟨"Low", 1⟩] [0, 0] (-1) =
        List.replicate ([⟨"None", 0⟩, ⟨"Low", 1⟩] : List arg_val_t).length false ∧
      onCheck [⟨"None", 0⟩, ⟨"Low", 1⟩] [0, 0] ['-', '1'] 1 true = some ['-', '1'] ∧
      ArgsTextControl.getArgValue [] = some (-1) ∧
      onCheck [⟨"None", 0⟩, ⟨"Low", 1⟩] [0, 0] [] 1 true = some [] :=
  unset_value [⟨"None", 0⟩, ⟨"Low", 1⟩] [0, 0] ['-', '1'] 1 true (by decide)

theorem group_members_exclusive_witness :
    ¬ ((updateCheckState [⟨"None", 0⟩, ⟨"Low", 1⟩, ⟨"Medium", 2⟩, ⟨"High", 3⟩]
          [3, 3, 3, 3] 2)[1]? = some true ∧
       (updateCheckState [⟨"None", 0⟩, ⟨"Low", 1⟩, ⟨"Medium", 2⟩, ⟨"High", 3⟩]
          [3, 3, 3, 3] 2)[2]? = some true) :=
  group_members_exclusive exampleFlags [3, 3, 3, 3] 2 1 2 (by decide) (by decide) (by decide) (by decide) (by decide)

end ArgsFlagsControl

namespace ArgsTextControl

/-- C10. Set/get round trip of the text control: for a `long` value `v >= 0`,
`getArgValue()` after `setArgValue(v)` returns `v`; for `v < 0`, `setArgValue(v)` empties the
text and `getArgValue()` then returns -1. -/
theorem set_get_round_trip (v : Int) (hlong : v ≤ LONG_MAX) :
    (0 ≤ v → getArgValue (setArgValue v) = some v) ∧
      (v < 0 → setArgValue v = [] ∧ getArgValue (setArgValue v) = some (-1)) :=
  ⟨fun h0 => getArgValue_setArgValue_nonneg v h0 hlong,
   fun h => getArgValue_setArgValue_neg v h⟩

theorem set_get_round_trip_witness :
    ((0 : Int) ≤ 255 → getArgValue (setArgValue 255) = some 255) ∧
      ((255 : Int) < 0 → setArgValue 255 = [] ∧ getArgValue (setArgValue 255) = some (-1)) :=
  set_get_round_trip 255 (by decide)

end ArgsTextControl

/-! ## Bulk load and apply -/

namespace MapObject

theorem multiIntProperty_agree (l : MapObject) (ls : List MapObject) (prop : String)
    (value : Int) (h : ∀ o ∈ ls, o.intProperty prop = l.intProperty prop) :
    multiIntProperty (l :: ls) prop value = (true, l.intProperty prop) := by
  have : ls.all (fun o' => o'.intProperty prop == l.intProperty prop) = true := by
    rw [List.all_eq_true]
    intro o ho
    simpa using h o ho
  simp [multiIntProperty, this]

theorem multiIntProperty_disagree (l : MapObject) (ls : List MapObject) (prop : String)
    (value : Int) (h : ∃ o ∈ ls, o.intProperty prop ≠ l.intProperty prop) :
    multiIntProperty (l :: ls) prop value = (false, value) := by
  have : ¬ ls.all (fun o' => o'.intProperty prop == l.intProperty prop) = true := by
    rw [List.all_eq_true]
    intro hall
    obtain ⟨o, ho, hne⟩ := h
    exact hne (by simpa using hall o ho)
  simp [multiIntProperty, this]

/-- The out-argument of `multiIntProperty` initialised with the first line's value is
the first line's value, whether or not the lines agree. -/
theorem multiIntProperty_first (l : MapObject) (ls : List MapObject) (prop : String) :
    (multiIntProperty (l :: ls) prop (l.intProperty prop)).2 = l.intProperty prop := by
  simp only [multiIntProperty]
  split <;> rfl

end MapObject

namespace ActionSpecialPanel

/-- C7 (as stated, refuted). On three lines with specials 1, 2, 3 (not all equal)
`openLines` calls `setSpecial` with 1, the first line's special, and the special number box
then shows "1". -/
theorem openLines_special_counterexample :
    (∃ l ∈ threeLines, ∃ l' ∈ threeLines, l.intProperty "special" ≠ l'.intProperty "special") ∧
      (threeLines.head?.map fun l => l.intProperty "special") = some 1 ∧
      ((openLines false [] threeLines).map fun r => r.special) = some 1 ∧
      ((openLines false [] threeLines).map fun r =>
        setSpecial false (fun _ => false) [] r.special) = some ['1'] := by
  refine ⟨?_, by decide, by decide, by decide⟩
  refine ⟨exampleLine 1 7, by simp [threeLines], exampleLine 2 7, by simp [threeLines], ?_⟩
  decide

/-- C7 (amended). For every non-empty list of lines `openLines` calls `setSpecial` with the
first line's special (which is the common value when all lines agree), and unless the
special is loaded as a Boom generalised special the number box then shows that number. -/
theorem openLines_special (panel_args : Bool) (triggers_udmf : List String) (l : MapObject)
    (ls : List MapObject) (isBoom : Bool) (loadSpecial : Int → Bool) (text_special : wxString) :
    ∃ r, openLines panel_args triggers_udmf (l :: ls) = some r ∧
      r.special = l.intProperty "special" ∧
      ((∀ o ∈ l :: ls, ∀ o' ∈ l :: ls, o.intProperty "special" = o'.intProperty "special") →
        ∀ o ∈ l :: ls, r.special = o.intProperty "special") ∧
      ((isBoom && loadSpecial r.special) = false →
        setSpecial isBoom loadSpecial text_special r.special =
          fmtLong (l.intProperty "special")) := by
  refine ⟨_, rfl, MapObject.multiIntProperty_first l ls "special", ?_, ?_⟩
  · intro h o ho
    show (MapObject.multiIntProperty (l :: ls) "special" (l.intProperty "special")).2 = _
    rw [MapObject.multiIntProperty_first]
    exact h l (List.mem_cons_self l ls) o ho
  · intro h
    show setSpecial isBoom loadSpecial text_special
      (MapObject.multiIntProperty (l :: ls) "special" (l.intProperty "special")).2 = _
    rw [MapObject.multiIntProperty_first] at h ⊢
    simp [setSpecial, h]

end ActionSpecialPanel

namespace ActionSpecialPanel

theorem setValues_getElem? (args : List Int) (n : Nat) (hn : n < 5) :
    (ArgsPanel.setValues args)[n]? = some (args.getD n 0) := by
  simp [ArgsPanel.setValues, List.getElem?_map, List.getElem?_range hn]

/-- C8. `openLines` with an args panel: for every non-empty list of lines and every `n` in
0..4 the value handed to arg control `n` is the common value of property `argN` when all
lines agree on it, and the unset value -1 when they disagree. -/
theorem openLines_args (triggers_udmf : List String) (l : MapObject) (ls : List MapObject)
    (n : Nat) (hn : n < 5) :
    ∃ r args handed, openLines true triggers_udmf (l :: ls) = some r ∧
      r.args = some args ∧ args[n]? = some handed ∧
      (∀ x, (∀ o ∈ l :: ls, o.intProperty (argProps.getD n "") = x) → handed = x) ∧
      ((∃ o ∈ l :: ls, ∃ o' ∈ l :: ls,
          o.intProperty (argProps.getD n "") ≠ o'.intProperty (argProps.getD n "")) →
        handed = -1) := by
  refine ⟨_, _, _, rfl, rfl, setValues_getElem? _ n hn, ?_, ?_⟩
  · intro x hx
    have hagree : ∀ o ∈ ls, o.intProperty (argProps.getD n "") =
        l.intProperty (argProps.getD n "") := by
      intro o ho
      rw [hx o (List.mem_cons_of_mem l ho), hx l (List.mem_cons_self l ls)]
    have hl := hx l (List.mem_cons_self l ls)
    have h5 : n = 0 ∨ n = 1 ∨ n = 2 ∨ n = 3 ∨ n = 4 := by omega
    rcases h5 with h | h | h | h | h <;> subst h <;>
      simp only [argProps, List.getD_cons_zero, List.getD_cons_succ] at hagree hl ⊢ <;>
      simp [List.getD, MapObject.multiIntProperty_agree l ls _ (-1) hagree, hl]
  · rintro ⟨o, ho, o', ho', hne⟩
    have hdis : ∃ o ∈ ls, o.intProperty (argProps.getD n "") ≠
        l.intProperty (argProps.getD n "") := by
      by_contra hcon
      push_neg at hcon
      have e1 : o.intProperty (argProps.getD n "") = l.intProperty (argProps.getD n "") := by
        rcases List.mem_cons.1 ho with h | h
        · rw [h]
        · exact hcon o h
      have e2 : o'.intProperty (argProps.getD n "") = l.intProperty (argProps.getD n "") := by
        rcases List.mem_cons.1 ho' with h | h
        · rw [h]
        · exact hcon o' h
      exact hne (e1.trans e2.symm)
    have h5 : n = 0 ∨ n = 1 ∨ n = 2 ∨ n = 3 ∨ n = 4 := by omega
    rcases h5 with h | h | h | h | h <;> subst h <;>
      simp only [argProps, List.getD_cons_zero, List.getD_cons_succ] at hdis ⊢ <;>
      simp [List.getD, MapObject.multiIntProperty_disagree l ls _ (-1) hdis]

theorem openLines_args_witness :
    ∃ r args handed, openLines true [] (exampleLine 1 7 :: [exampleLine 2 7, exampleLine 3 9]) = some r ∧
      r.args = some args ∧ args[2]? = some handed ∧
      (∀ x, (∀ o ∈ exampleLine 1 7 :: [exampleLine 2 7, exampleLine 3 9],
        o.intProperty (argProps.getD 2 "") = x) → handed = x) ∧
      ((∃ o ∈ exampleLine 1 7 :: [exampleLine 2 7, exampleLine 3 9], ∃ o' ∈ exampleLine 1 7 :: [exampleLine 2 7, exampleLine 3 9],
          o.intProperty (argProps.getD 2 "") ≠ o'.intProperty (argProps.getD 2 "")) →
        handed = -1) :=
  openLines_args [] (exampleLine 1 7) [exampleLine 2 7, exampleLine 3 9] 2 (by decide)

end ActionSpecialPanel

namespace ActionSpecialPanel

theorem udmfTriggers_intProperty (cbs : List (String × wxCheckBoxState)) :
    ∀ (line : MapObject) (p : String),
      (cbs.foldl (fun l cb =>
        match cb.2 with
        | wxCheckBoxState.wxCHK_UNDETERMINED => l
        | wxCheckBoxState.wxCHK_CHECKED => l.setBoolProperty cb.1 true
        | wxCheckBoxState.wxCHK_UNCHECKED => l.setBoolProperty cb.1 false) line).intProperty p =
        line.intProperty p := by
  induction cbs with
  | nil => intro line p; rfl
  | cons cb cbs ih =>
    intro line p
    rw [List.foldl_cons, ih]
    cases cb.2 <;> rfl

/-- The trigger part of `applyTo` leaves alone every integer property that
`setLineSpacTrigger` leaves alone. -/
theorem applyTriggers_intProperty (setLineSpacTrigger : Int → MapObject → MapObject)
    (t : Triggers) (line : MapObject) (p : String)
    (hext : ∀ sel o, (setLineSpacTrigger sel o).intProperty p = o.intProperty p) :
    (applyTriggers setLineSpacTrigger t line).intProperty p = line.intProperty p := by
  unfold applyTriggers
  split
  · split
    · exact udmfTriggers_intProperty t.cb_triggers line p
    · split
      · split
        · exact hext _ _
        · rfl
      · rfl
  · rfl

theorem applyArgs_special (args : List Int) (line : MapObject) :
    (applyArgs args line).intProperty "special" = line.intProperty "special" := by
  simp only [applyArgs, List.range, List.range.loop, List.foldl_cons, List.foldl_nil, argProps,
    List.getD_cons_zero, List.getD_cons_succ]
  repeat (first | split | rfl)

theorem applyArgs_arg (args : List Int) (line : MapObject) (n : Nat) (hn : n < 5) :
    (applyArgs args line).intProperty (argProps.getD n "") =
      if args.getD n 0 ≥ 0 then args.getD n 0 else line.intProperty (argProps.getD n "") := by
  have h5 : n = 0 ∨ n = 1 ∨ n = 2 ∨ n = 3 ∨ n = 4 := by omega
  rcases h5 with h | h | h | h | h <;> subst h <;>
    simp only [applyArgs, List.range, List.range.loop, List.foldl_cons, List.foldl_nil, argProps,
      List.getD_cons_zero, List.getD_cons_succ] <;>
    repeat (first | split | rfl | contradiction)

theorem getArgValue_getD (control_args : List Int) (n : Nat) (hn : n < 5) :
    ((List.range 5).map fun n => ArgsPanel.getArgValue control_args n).getD n 0 =
      ArgsPanel.getArgValue control_args n := by
  have h5 : n = 0 ∨ n = 1 ∨ n = 2 ∨ n = 3 ∨ n = 4 := by omega
  rcases h5 with h | h | h | h | h <;> subst h <;> rfl

/-- C9. `applyTo`: with an args panel, property `argN` (`n` in 0..4) of every line is set to
the panel's value for arg `n` when that value is `>= 0` and is left unchanged otherwise (in
particular when it is -1); with or without an args panel the property `special` of every line
is set to the selected special when `apply_special` is true and the special is `>= 0`, and is
left unchanged otherwise.  (`setLineSpacTrigger` is external and is assumed to write neither
the special nor an arg.) -/
theorem applyTo_writes (special : Int) (control_args : List Int) (panel_args : Option (List Int))
    (setLineSpacTrigger : Int → MapObject → MapObject) (t : Triggers) (lines : List MapObject)
    (apply_special : Bool) (a : Nat) (line : MapObject) (ha : lines[a]? = some line)
    (hext : ∀ sel o p, p = "special" ∨ p ∈ argProps →
      (setLineSpacTrigger sel o).intProperty p = o.intProperty p) :
    (∃ line', (applyTo special (some control_args) setLineSpacTrigger t lines apply_special)[a]?
        = some line' ∧
      ∀ n : Nat, n < 5 → line'.intProperty (argProps.getD n "") =
        if ArgsPanel.getArgValue control_args n ≥ 0 then ArgsPanel.getArgValue control_args n
        else line.intProperty (argProps.getD n "")) ∧
    (∃ line', (applyTo special panel_args setLineSpacTrigger t lines apply_special)[a]?
        = some line' ∧
      line'.intProperty "special" =
        if apply_special = true ∧ special ≥ 0 then special else line.intProperty "special") := by
  constructor
  · by_cases hs : apply_special = true ∧ special ≥ 0
    · refine ⟨_, by simp only [applyTo, hs, and_self, if_true, List.getElem?_map, ha,
        Option.map_some']; rfl, ?_⟩
      intro n hn
      have hmem : argProps.getD n "" ∈ argProps := by
        have h5 : n = 0 ∨ n = 1 ∨ n = 2 ∨ n = 3 ∨ n = 4 := by omega
        rcases h5 with h | h | h | h | h <;> subst h <;> simp [argProps]
      rw [applyTriggers_intProperty _ _ _ _ (fun sel o => hext sel o _ (Or.inr hmem)),
        applyArgs_arg _ _ n hn, getArgValue_getD control_args n hn]
      have h5 : n = 0 ∨ n = 1 ∨ n = 2 ∨ n = 3 ∨ n = 4 := by omega
      rcases h5 with h | h | h | h | h <;> subst h <;> rfl
    · refine ⟨_, by simp only [applyTo, hs, if_false, List.getElem?_map, ha,
        Option.map_some']; rfl, ?_⟩
      intro n hn
      have hmem : argProps.getD n "" ∈ argProps := by
        have h5 : n = 0 ∨ n = 1 ∨ n = 2 ∨ n = 3 ∨ n = 4 := by omega
        rcases h5 with h | h | h | h | h <;> subst h <;> simp [argProps]
      rw [applyTriggers_intProperty _ _ _ _ (fun sel o => hext sel o _ (Or.inr hmem)),
        applyArgs_arg _ _ n hn, getArgValue_getD control_args n hn]
  · have htrig : ∀ l : MapObject, (applyTriggers setLineSpacTrigger t l).intProperty "special" =
        l.intProperty "special" := fun l =>
      applyTriggers_intProperty _ _ _ _ (fun sel o => hext sel o _ (Or.inl rfl))
    by_cases hs : apply_special = true ∧ special ≥ 0 <;> cases panel_args with
    | none =>
      refine ⟨_, by simp only [applyTo, hs, and_self, if_true, if_false, List.getElem?_map, ha,
        Option.map_some']; rfl, ?_⟩
      rw [htrig]
      first
        | (rw [if_pos hs]; simp [MapObject.setIntProperty, MapObject.intProperty])
        | rw [if_neg hs]
    | some ca =>
      refine ⟨_, by simp only [applyTo, hs, and_self, if_true, if_false, List.getElem?_map, ha,
        Option.map_some']; rfl, ?_⟩
      rw [htrig, applyArgs_special]
      first
        | (rw [if_pos hs]; simp [MapObject.setIntProperty, MapObject.intProperty])
        | rw [if_neg hs]

end ActionSpecialPanel

namespace ActionSpecialPanel

theorem applyTo_writes_witness :
    (∃ line', (applyTo 5 (some [1, -1, 3, -1, 0]) (fun _ o => o) ⟨false, [], none⟩ threeLines
        true)[0]? = some line' ∧
      ∀ n : Nat, n < 5 → line'.intProperty (argProps.getD n "") =
        if ArgsPanel.getArgValue [1, -1, 3, -1, 0] n ≥ 0 then
          ArgsPanel.getArgValue [1, -1, 3, -1, 0] n
        else (exampleLine 1 7).intProperty (argProps.getD n "")) ∧
    (∃ line', (applyTo 5 (some [1, -1, 3, -1, 0]) (fun _ o => o) ⟨false, [], none⟩ threeLines
        true)[0]? = some line' ∧
      line'.intProperty "special" =
        if true = true ∧ (5 : Int) ≥ 0 then 5 else (exampleLine 1 7).intProperty "special") :=
  applyTo_writes 5 [1, -1, 3, -1, 0] (some [1, -1, 3, -1, 0]) (fun _ o => o) ⟨false, [], none⟩
    threeLines true 0 (exampleLine 1 7) rfl (fun _ _ _ _ => rfl)

end ActionSpecialPanel

/-! ## Isolation of an independent flag -/

namespace ArgsFlagsControl

/-- C4 (as stated, refuted). In the list with two independent flags of value 1, toggling
the first one on while the value is 0 sets bit 0, which belongs to the second flag. -/
theorem toggle_independent_counterexample :
    groupMask (flagToBitGroup duplicateFlags) 0 = 0 ∧
      (flagValue duplicateFlags 1).testBit 0 = true ∧
      ArgsTextControl.getArgValue ['0'] = some 0 ∧
      onCheck duplicateFlags (flagToBitGroup duplicateFlags) ['0'] 0 true = some ['1'] ∧
      ArgsTextControl.getArgValue ['1'] = some 1 ∧
      (1 : Int).testBit 0 ≠ (0 : Int).testBit 0 := by
  decide

/-- C4 (amended). Toggling one independent flag control (group mask 0) through `onCheck`
while the `int` value `val` read from the text box is `>= 0` sets the text box to a value
`r` that agrees with `val` on every bit that belongs to a flag of the list with a different
value, to a computed bit group, or to the group mask of any flag.  (The text box reads back
as `r` whenever the flag value is an `int`.) -/
theorem toggle_independent_isolated (flags : List arg_val_t) (text_control : wxString)
    (i : Nat) (isChecked : Bool) (v : Int)
    (hval : ArgsTextControl.getArgValue text_control = some v) (h0 : 0 ≤ toInt v)
    (hi : i < flags.length) (hind : groupMask (flagToBitGroup flags) i = 0) :
    ∃ text' r, onCheck flags (flagToBitGroup flags) text_control i isChecked = some text' ∧
      text' = ArgsTextControl.setArgValue r ∧
      (∀ k, ((∃ j, j < flags.length ∧ flagValue flags j ≠ flagValue flags i ∧
              (flagValue flags j).testBit k = true) ∨
            (∃ g ∈ bitGroups flags, g.testBit k = true) ∨
            (∃ j, (groupMask (flagToBitGroup flags) j).testBit k = true)) →
        r.testBit k = (toInt v).testBit k) ∧
      (flagValue flags i ≤ INT_MAX → ArgsTextControl.getArgValue text' = some r) := by
  have hf0 := independent_nonneg flags i hi hind
  refine ⟨_, toggledValue flags (flagToBitGroup flags) (toInt v) i isChecked,
    onCheck_of_nonneg flags _ text_control i isChecked v hval h0 hi, rfl, ?_, ?_⟩
  · intro k hk
    apply toggledValue_testBit
    · cases hik : (flagValue flags i).testBit k with
      | false => rfl
      | true =>
        exfalso
        obtain ⟨p1, p2, p3⟩ := independent_bit_private flags i hi hind k hik
        rcases hk with ⟨j, hj, hne, hjk⟩ | ⟨g, hg, hgk⟩ | ⟨j, hjk⟩
        · rw [p1 j hj hne] at hjk; exact Bool.noConfusion hjk
        · rw [p2 g hg] at hgk; exact Bool.noConfusion hgk
        · rw [p3 j] at hjk; exact Bool.noConfusion hjk
    · rw [hind, testBit_zero_int]
  · intro hf1
    have hr := toggledValue_range flags (flagToBitGroup flags) (toInt v) i isChecked h0
      (toInt_le_INT_MAX v) hf0 hf1
    exact ArgsTextControl.getArgValue_setArgValue_nonneg _ hr.1 (INT_MAX_le_LONG_MAX _ hr.2)

theorem toggle_independent_isolated_witness :
    ∃ text' r, onCheck isolatedFlags (flagToBitGroup isolatedFlags) ['2'] 0 true = some text' ∧
      text' = ArgsTextControl.setArgValue r ∧
      (∀ k, ((∃ j, j < isolatedFlags.length ∧
              flagValue isolatedFlags j ≠ flagValue isolatedFlags 0 ∧
              (flagValue isolatedFlags j).testBit k = true) ∨
            (∃ g ∈ bitGroups isolatedFlags, g.testBit k = true) ∨
            (∃ j, (groupMask (flagToBitGroup isolatedFlags) j).testBit k = true)) →
        r.testBit k = (toInt 2).testBit k) ∧
      (flagValue isolatedFlags 0 ≤ INT_MAX → ArgsTextControl.getArgValue text' = some r) :=
  toggle_independent_isolated isolatedFlags ['2'] 0 true 2 (by decide) (by decide) (by decide)
    (by decide)

end ArgsFlagsControl

/-! ## Encoding a selection -/

namespace ArgsFlagsControl

theorem toggledValue_on (flags : List arg_val_t) (groups : List Int) (w : Int) (i : Nat) :
    toggledValue flags groups w i true =
      bitor (bitand w (bitnot (clearMask flags groups i))) (flagValue flags i) := by
  simp only [toggledValue, clearMask, if_true]
  by_cases h : groupMask groups i ≠ 0
  · rw [if_pos h, if_pos h]
  · rw [if_neg h, if_neg h]

theorem toggledValue_on_testBit (flags : List arg_val_t) (groups : List Int) (w : Int) (i k : Nat) :
    (toggledValue flags groups w i true).testBit k = true ↔
      (w.testBit k = true ∧ (clearMask flags groups i).testBit k = false) ∨
        (flagValue flags i).testBit k = true := by
  rw [toggledValue_on, testBit_bitor, testBit_bitand, testBit_bitnot]
  cases w.testBit k <;> cases (clearMask flags groups i).testBit k <;>
    cases (flagValue flags i).testBit k <;> simp

/-- Switching on the controls of `selected` through `onCheck` computes `valueFold` on the
content of the text box. -/
theorem foldl_onCheck (flags : List arg_val_t) (groups : List Int)
    (hrange : ∀ i, i < flags.length → 0 ≤ flagValue flags i ∧ flagValue flags i ≤ INT_MAX) :
    ∀ (selected : List Nat) (text : wxString) (w : Int),
      ArgsTextControl.getArgValue text = some w → 0 ≤ w → w ≤ INT_MAX →
      (∀ i ∈ selected, i < flags.length) →
      ∃ text', selected.foldl (fun text i => text.bind fun t => onCheck flags groups t i true)
          (some text) = some text' ∧
        ArgsTextControl.getArgValue text' = some (valueFold flags groups w selected) ∧
        0 ≤ valueFold flags groups w selected ∧ valueFold flags groups w selected ≤ INT_MAX := by
  intro selected
  induction selected with
  | nil => intro text w hw h0 h1 _; exact ⟨text, rfl, hw, h0, h1⟩
  | cons i sel ih =>
    intro text w hw h0 h1 hsel
    have hi := hsel i (List.mem_cons_self _ _)
    have hr := toggledValue_range flags groups w i true h0 h1 (hrange i hi).1 (hrange i hi).2
    have hstep := onCheck_eq flags groups text i true w hw h0 h1 hi
    have hget := ArgsTextControl.getArgValue_setArgValue_nonneg _ hr.1
      (INT_MAX_le_LONG_MAX _ hr.2)
    obtain ⟨text', e1, e2, e3, e4⟩ := ih _ _ hget hr.1 hr.2
      (fun x hx => hsel x (List.mem_cons_of_mem _ hx))
    refine ⟨text', ?_, ?_, ?_, ?_⟩
    · rw [List.foldl_cons]
      simp only [Option.some_bind, hstep]
      exact e1
    · simpa [valueFold] using e2
    · simpa [valueFold] using e3
    · simpa [valueFold] using e4

/-- The bits of the encoded value are the bits of the start value and of the selected flag
values, when no toggle clears a bit set before it. -/
theorem valueFold_testBit (flags : List arg_val_t) (groups : List Int) :
    ∀ (selected : List Nat) (w : Int),
      (∀ j ∈ selected, ∀ k, w.testBit k = true → (clearMask flags groups j).testBit k = true →
        (flagValue flags j).testBit k = true) →
      (∀ j ∈ selected, ∀ j' ∈ selected, ∀ k, (flagValue flags j).testBit k = true →
        (clearMask flags groups j').testBit k = true → (flagValue flags j').testBit k = true) →
      ∀ k, (valueFold flags groups w selected).testBit k = true ↔
        (w.testBit k = true ∨ ∃ j ∈ selected, (flagValue flags j).testBit k = true) := by
  intro selected
  induction selected with
  | nil => intro w _ _ k; simp [valueFold]
  | cons i sel ih =>
    intro w hw hpw k
    have hstep : ∀ k, (toggledValue flags groups w i true).testBit k = true ↔
        (w.testBit k = true ∨ (flagValue flags i).testBit k = true) := by
      intro k
      rw [toggledValue_on_testBit]
      constructor
      · rintro (⟨h, _⟩ | h)
        · exact Or.inl h
        · exact Or.inr h
      · rintro (h | h)
        · cases hm : (clearMask flags groups i).testBit k with
          | false => exact Or.inl ⟨h, rfl⟩
          | true => exact Or.inr (hw i (List.mem_cons_self _ _) k h hm)
        · exact Or.inr h
    have e : valueFold flags groups w (i :: sel) =
        valueFold flags groups (toggledValue flags groups w i true) sel := rfl
    rw [e, ih (toggledValue flags groups w i true) ?_ ?_ k, hstep k]
    · constructor
      · rintro ((h | h) | ⟨j, hj, h⟩)
        · exact Or.inl h
        · exact Or.inr ⟨i, List.mem_cons_self _ _, h⟩
        · exact Or.inr ⟨j, List.mem_cons_of_mem _ hj, h⟩
      · rintro (h | ⟨j, hj, h⟩)
        · exact Or.inl (Or.inl h)
        · rcases List.mem_cons.1 hj with rfl | hj
          · exact Or.inl (Or.inr h)
          · exact Or.inr ⟨j, hj, h⟩
    · intro j hj k' hk' hm
      rcases (hstep k').1 hk' with h | h
      · exact hw j (List.mem_cons_of_mem _ hj) k' h hm
      · exact hpw i (List.mem_cons_self _ _) j (List.mem_cons_of_mem _ hj) k' h hm
    · intro j hj j' hj' k' h hm
      exact hpw j (List.mem_cons_of_mem _ hj) j' (List.mem_cons_of_mem _ hj') k' h hm

end ArgsFlagsControl

/-! ## Decoding an encoded selection -/

namespace ArgsFlagsControl

theorem bitsWithin_of_bitand (v g : Int) (h : bitand v g = v) : BitsWithin v g := by
  intro k hk
  have := testBit_bitand v g k
  rw [h, hk] at this
  simpa using this.symm

theorem clearMask_of_grouped (flags : List arg_val_t) (groups : List Int) (i : Nat)
    (h : groupMask groups i ≠ 0) : clearMask flags groups i = groupMask groups i := by
  simp only [clearMask]; rw [if_pos h]

theorem clearMask_of_independent (flags : List arg_val_t) (groups : List Int) (i : Nat)
    (h : groupMask groups i = 0) : clearMask flags groups i = flagValue flags i := by
  simp only [clearMask]; rw [if_neg (not_not.2 h)]

/-- A bit shared by a flag value and a group mask: the flag is a member of that group. -/
theorem group_of_shared_bit (flags : List arg_val_t)
    (hs : Separated flags (flagToBitGroup flags)) (j i : Nat) (hj : j < flags.length)
    (hi : i < flags.length) (k : Nat) (hjk : (flagValue flags j).testBit k = true)
    (hik : (groupMask (flagToBitGroup flags) i).testBit k = true) :
    groupMask (flagToBitGroup flags) j = groupMask (flagToBitGroup flags) i := by
  by_cases hg : groupMask (flagToBitGroup flags) j = 0
  · exfalso
    have := (independent_bit_private flags j hj hg k hjk).2.2 i
    rw [hik] at this
    exact Bool.noConfusion this
  · by_contra hne
    have hjg := bitsWithin_of_bitand _ _ (hs.within j hj hg) k hjk
    have := (bitand_eq_zero_iff _ _).1 (hs.disjoint j hj i hi hne) k hjg
    rw [hik] at this
    exact Bool.noConfusion this

theorem selection_pairwise (flags : List arg_val_t) (selected : List Nat)
    (hs : Separated flags (flagToBitGroup flags))
    (hsel : Selection flags (flagToBitGroup flags) selected) :
    ∀ j ∈ selected, ∀ j' ∈ selected, ∀ k, (flagValue flags j).testBit k = true →
      (clearMask flags (flagToBitGroup flags) j').testBit k = true →
      (flagValue flags j').testBit k = true := by
  intro j hj j' hj' k hjk hm
  by_cases hg' : groupMask (flagToBitGroup flags) j' = 0
  · rw [clearMask_of_independent _ _ _ hg'] at hm; exact hm
  · rw [clearMask_of_grouped _ _ _ hg'] at hm
    have e := group_of_shared_bit flags hs j j' (hsel.in_range j hj) (hsel.in_range j' hj')
      k hjk hm
    have hgj : groupMask (flagToBitGroup flags) j ≠ 0 := by rw [e]; exact hg'
    have := hsel.one_per_group j hj j' hj' hgj e
    subst this
    exact hjk

/-- The encoded value of a selection: its bits are the bits of the selected flag values. -/
theorem encode_value (flags : List arg_val_t) (selected : List Nat)
    (hs : Separated flags (flagToBitGroup flags))
    (hsel : Selection flags (flagToBitGroup flags) selected) :
    ∃ text val, encode flags (flagToBitGroup flags) selected = some text ∧
      ArgsTextControl.getArgValue text = some val ∧ 0 ≤ val ∧
      ∀ k, val.testBit k = true ↔ ∃ j ∈ selected, (flagValue flags j).testBit k = true := by
  obtain ⟨text, e1, e2, e3, _⟩ := foldl_onCheck flags (flagToBitGroup flags) hs.range selected
    ['0'] 0 (by decide) (by decide) (by decide) hsel.in_range
  refine ⟨text, _, e1, e2, e3, fun k => ?_⟩
  rw [valueFold_testBit flags (flagToBitGroup flags) selected 0 ?_
    (selection_pairwise flags selected hs hsel) k]
  · simp [testBit_zero_int]
  · intro j _ k hk
    rw [testBit_zero_int] at hk
    exact Bool.noConfusion hk

/-- Decoding the encoded value, one control: it is marked iff it was selected, or its value
is 0 and it is independent or no member of its group was selected. -/
theorem decode_control (flags : List arg_val_t) (selected : List Nat)
    (hs : Separated flags (flagToBitGroup flags))
    (hsel : Selection flags (flagToBitGroup flags) selected) (val : Int) (h0 : 0 ≤ val)
    (hval : ∀ k, val.testBit k = true ↔ ∃ j ∈ selected, (flagValue flags j).testBit k = true)
    (i : Nat) (hi : i < flags.length) :
    checkState val (flagValue flags i) (groupMask (flagToBitGroup flags) i) = true ↔
      (i ∈ selected ∨ (flagValue flags i = 0 ∧
        (groupMask (flagToBitGroup flags) i = 0 ∨
          ∀ j ∈ selected, groupMask (flagToBitGroup flags) j ≠
            groupMask (flagToBitGroup flags) i))) := by
  by_cases hg : groupMask (flagToBitGroup flags) i = 0
  · -- an independent flag
    have hcs : checkState val (flagValue flags i) (groupMask (flagToBitGroup flags) i) = true ↔
        bitand val (flagValue flags i) = flagValue flags i := by
      simp [checkState, hg, h0]
    rw [hcs]
    by_cases hv : flagValue flags i = 0
    · rw [hv]
      constructor
      · intro _; exact Or.inr ⟨rfl, Or.inl hg⟩
      · intro _
        apply eq_of_testBit_eq
        intro k
        rw [testBit_bitand, testBit_zero_int]; simp
    · obtain ⟨k0, hk0, _⟩ := independent_single_bit flags i hi hg hv
      have hik0 : (flagValue flags i).testBit k0 = true := by rw [hk0]; simp
      constructor
      · intro h
        left
        have hvk : val.testBit k0 = true := by
          have := testBit_bitand val (flagValue flags i) k0
          rw [h, hik0] at this
          simpa using this.symm
        obtain ⟨j, hj, hjk⟩ := (hval k0).1 hvk
        by_cases hgj : groupMask (flagToBitGroup flags) j = 0
        · have hvj : flagValue flags j ≠ 0 := by
            intro h; rw [h, testBit_zero_int] at hjk; exact Bool.noConfusion hjk
          have := (independent_bit_private flags i hi hg k0 hik0).1 j (hsel.in_range j hj)
          by_cases e : flagValue flags j = flagValue flags i
          · rw [hs.distinct j (hsel.in_range j hj) i hi e] at hj; exact hj
          · rw [this e] at hjk; exact Bool.noConfusion hjk
        · exfalso
          have hjg := bitsWithin_of_bitand _ _ (hs.within j (hsel.in_range j hj) hgj) k0 hjk
          have := (independent_bit_private flags i hi hg k0 hik0).2.2 j
          rw [hjg] at this
          exact Bool.noConfusion this
      · rintro (h | ⟨h, _⟩)
        · apply eq_of_testBit_eq
          intro k
          rw [testBit_bitand, hk0]
          by_cases e : k0 = k
          · subst e
            have : val.testBit k0 = true := (hval k0).2 ⟨i, h, hik0⟩
            simp [this]
          · simp [e]
        · exact absurd h hv
  · -- a member of a bit group
    have hcs : checkState val (flagValue flags i) (groupMask (flagToBitGroup flags) i) = true ↔
        bitand val (groupMask (flagToBitGroup flags) i) = flagValue flags i := by
      simp [checkState, hg, h0]
    rw [hcs]
    have hbits : ∀ k, (bitand val (groupMask (flagToBitGroup flags) i)).testBit k = true ↔
        ∃ j ∈ selected, groupMask (flagToBitGroup flags) j = groupMask (flagToBitGroup flags) i ∧
          (flagValue flags j).testBit k = true := by
      intro k
      rw [testBit_bitand, Bool.and_eq_true, hval k]
      constructor
      · rintro ⟨⟨j, hj, hjk⟩, hgk⟩
        exact ⟨j, hj, group_of_shared_bit flags hs j i (hsel.in_range j hj) hi k hjk hgk, hjk⟩
      · rintro ⟨j, hj, e, hjk⟩
        refine ⟨⟨j, hj, hjk⟩, ?_⟩
        rw [← e]
        exact bitsWithin_of_bitand _ _ (hs.within j (hsel.in_range j hj) (by rw [e]; exact hg))
          k hjk
    have hmember : ∀ j0 ∈ selected,
        groupMask (flagToBitGroup flags) j0 = groupMask (flagToBitGroup flags) i →
        bitand val (groupMask (flagToBitGroup flags) i) = flagValue flags j0 := by
      intro j0 hj0 e0
      apply eq_of_testBit_eq
      intro k
      apply Bool.eq_iff_iff.2
      rw [hbits k]
      constructor
      · rintro ⟨j, hj, e, hjk⟩
        have : j0 = j := hsel.one_per_group j0 hj0 j hj (by rw [e0]; exact hg) (e0.trans e.symm)
        rw [this]; exact hjk
      · intro h; exact ⟨j0, hj0, e0, h⟩
    constructor
    · intro h
      by_cases hex : ∃ j0 ∈ selected,
          groupMask (flagToBitGroup flags) j0 = groupMask (flagToBitGroup flags) i
      · obtain ⟨j0, hj0, e0⟩ := hex
        left
        have : flagValue flags j0 = flagValue flags i := (hmember j0 hj0 e0).symm.trans h
        rw [← hs.distinct j0 (hsel.in_range j0 hj0) i hi this]; exact hj0
      · right
        push_neg at hex
        refine ⟨?_, Or.inr hex⟩
        rw [← h]
        apply eq_of_testBit_eq
        intro k
        rw [testBit_zero_int]
        cases hb : (bitand val (groupMask (flagToBitGroup flags) i)).testBit k with
        | false => rfl
        | true =>
          obtain ⟨j, hj, e, _⟩ := (hbits k).1 hb
          exact absurd e (hex j hj)
    · rintro (h | ⟨hv, h⟩)
      · exact hmember i h rfl
      · rcases h with h | h
        · exact absurd h hg
        · rw [hv]
          apply eq_of_testBit_eq
          intro k
          rw [testBit_zero_int]
          cases hb : (bitand val (groupMask (flagToBitGroup flags) i)).testBit k with
          | false => rfl
          | true =>
            obtain ⟨j, hj, e, _⟩ := (hbits k).1 hb
            exact absurd e (h j hj)

end ArgsFlagsControl

/-! ## The decode/encode round trip -/

namespace ArgsFlagsControl

/-- C3 (as stated, refuted). On the flag list None/Low/Medium/High (one bit group, mask 3)
the empty selection is encoded as 0, and decoding 0 marks the radio button "None", which is
not in the selection.  On a list with overlapping bit groups the selection of the single
flag 12 is encoded as 12, and decoding 12 marks no control at all. -/
theorem decode_encode_counterexample :
    (flagToBitGroup exampleFlags = [3, 3, 3, 3] ∧
      encode exampleFlags (flagToBitGroup exampleFlags) [] = some ['0'] ∧
      onKeypress exampleFlags (flagToBitGroup exampleFlags) ['0'] =
        some [true, false, false, false]) ∧
    (flagToBitGroup overlappingFlags = [7, 7, 7] ∧
      encode overlappingFlags (flagToBitGroup overlappingFlags) [1] = some ['1', '2'] ∧
      onKeypress overlappingFlags (flagToBitGroup overlappingFlags) ['1', '2'] =
        some [false, false, false]) := by
  decide

/-- C3 (amended). Decode/encode round trip: for every flag list with pairwise distinct
non-negative `int` values in which every grouped flag's value lies within its group mask and
different group masks share no bit, and every selection of its controls (any combination of
independent flags plus at most one member per bit group), encoding the selection (switching
its controls on through `onCheck`, starting from 0) and decoding the result with
`updateCheckState` marks exactly the selected controls and, besides them, the flags of
value 0 that are independent or whose group has no selected member. -/
theorem decode_encode_selection (flags : List arg_val_t) (selected : List Nat)
    (hs : Separated flags (flagToBitGroup flags))
    (hsel : Selection flags (flagToBitGroup flags) selected) :
    ∃ text marks, encode flags (flagToBitGroup flags) selected = some text ∧
      onKeypress flags (flagToBitGroup flags) text = some marks ∧
      marks.length = flags.length ∧
      ∀ i, i < flags.length → ∃ c, marks[i]? = some c ∧
        (c = true ↔
          (i ∈ selected ∨ (flagValue flags i = 0 ∧
            (groupMask (flagToBitGroup flags) i = 0 ∨
              ∀ j ∈ selected, groupMask (flagToBitGroup flags) j ≠
                groupMask (flagToBitGroup flags) i)))) := by
  obtain ⟨text, val, e1, e2, h0, hval⟩ := encode_value flags selected hs hsel
  refine ⟨text, updateCheckState flags (flagToBitGroup flags) val, e1, ?_,
    updateCheckState_length _ _ _, fun i hi => ?_⟩
  · simp [onKeypress, e2]
  · exact ⟨_, updateCheckState_getElem? flags _ val i hi,
      decode_control flags selected hs hsel val h0 hval i hi⟩

theorem decode_encode_selection_witness :
    ∃ text marks, encode exampleFlags (flagToBitGroup exampleFlags) [2] = some text ∧
      onKeypress exampleFlags (flagToBitGroup exampleFlags) text = some marks ∧
      marks.length = exampleFlags.length ∧
      ∀ i, i < exampleFlags.length → ∃ c, marks[i]? = some c ∧
        (c = true ↔
          (i ∈ [2] ∨ (flagValue exampleFlags i = 0 ∧
            (groupMask (flagToBitGroup exampleFlags) i = 0 ∨
              ∀ j ∈ [2], groupMask (flagToBitGroup exampleFlags) j ≠
                groupMask (flagToBitGroup exampleFlags) i)))) :=
  decode_encode_selection exampleFlags [2]
    ⟨by decide, by decide, by decide, by decide⟩ ⟨by decide, by decide⟩

end ArgsFlagsControl

/-! ## The constructor: what each flag is given -/

namespace ArgsFlagsControl

theorem isDone_set_self (l : List Bool) (i : Nat) (x : Bool) (h : i < l.length) :
    isDone (l.set i x) i = x := by
  simp only [isDone, List.getElem?_set_self h]

theorem markLaterStep_info (flags : List arg_val_t) (bit_groups : List Int) (group : Int)
    (m ii : Nat) (st : Controls) (hg : group ∈ bit_groups) (hm : m ≤ ii)
    (inv : PassInv flags bit_groups m st) (info : PassInfo flags bit_groups m st) :
    PassInfo flags bit_groups m (markLaterStep flags group st ii) := by
  unfold markLaterStep
  by_cases hd : isDone st.flag_done ii = true
  · rw [if_pos hd]; exact info
  · rw [if_neg hd]
    by_cases hb : bitand (flagValue flags ii) group ≠ 0
    · rw [if_pos hb]
      by_cases hii : ii < flags.length
      · have hlg : ii < st.flag_to_bit_group.length := inv.len_group ▸ hii
        have hlc : ii < st.controls.length := info.len_controls ▸ hii
        refine ⟨by simp [addControl, info.len_controls], ?_, ?_⟩
        · intro i hi
          by_cases e : ii = i
          · subst e
            simp only [addControl, groupMask_set_self _ _ _ hlg, List.getElem?_set_self hlc]
            exact ⟨hg, hb, trivial⟩
          · simp only [addControl, groupMask_set_ne _ _ _ _ e, List.getElem?_set_ne e]
            simp only [isDone_set_ne _ _ _ _ e] at hi
            exact info.done_info i hi
        · intro i hi hnd
          have e : ii ≠ i := by omega
          simp only [addControl, groupMask_set_ne _ _ _ _ e, List.getElem?_set_ne e]
          simp only [isDone_set_ne _ _ _ _ e] at hnd
          exact info.leader_info i hi hnd
      · have e1 : st.flag_to_bit_group.set ii group = st.flag_to_bit_group :=
          List.set_eq_of_length_le (by rw [inv.len_group]; omega)
        have e2 : st.flag_done.set ii true = st.flag_done :=
          List.set_eq_of_length_le (by rw [inv.len_done]; omega)
        have e3 : st.controls.set ii (some (wxControl.wxRadioButton false)) = st.controls :=
          List.set_eq_of_length_le (by rw [info.len_controls]; omega)
        simp only [addControl, e1, e2, e3]
        exact info
    · rw [if_neg hb]; exact info

theorem foldl_markLaterStep_info (flags : List arg_val_t) (bit_groups : List Int) (group : Int)
    (m : Nat) (hg0 : group ≠ 0) (hg : group ∈ bit_groups) :
    ∀ (l : List Nat) (st : Controls), (∀ ii ∈ l, m ≤ ii) → PassInv flags bit_groups m st →
      PassInfo flags bit_groups m st →
      PassInfo flags bit_groups m (l.foldl (markLaterStep flags group) st) := by
  intro l
  induction l with
  | nil => intro st _ _ info; exact info
  | cons ii l ih =>
    intro st hl inv info
    rw [List.foldl_cons]
    exact ih _ (fun x hx => hl x (List.mem_cons_of_mem _ hx))
      (markLaterStep_inv flags bit_groups group m ii st hg0 hg
        (hl ii (List.mem_cons_self _ _)) inv)
      (markLaterStep_info flags bit_groups group m ii st hg
        (hl ii (List.mem_cons_self _ _)) inv info)

theorem controlStep_info (flags : List arg_val_t) (bit_groups : List Int) (m : Nat)
    (st : Controls) (hm : m < flags.length) (inv : PassInv flags bit_groups m st)
    (info : PassInfo flags bit_groups m st) :
    PassInfo flags bit_groups (m + 1) (controlStep flags bit_groups st m) := by
  have hlg : m < st.flag_to_bit_group.length := inv.len_group ▸ hm
  have hlc : m < st.controls.length := info.len_controls ▸ hm
  unfold controlStep
  by_cases hd : isDone st.flag_done m = true
  · rw [if_pos hd]
    refine ⟨info.len_controls, info.done_info, ?_⟩
    intro i hi hnd
    by_cases e : i = m
    · subst e; rw [hd] at hnd; exact Bool.noConfusion hnd
    · exact info.leader_info i (by omega) hnd
  · rw [if_neg hd]
    simp only []
    have hd' : isDone st.flag_done m = false := by
      cases h : isDone st.flag_done m with
      | false => rfl
      | true => exact absurd h hd
    by_cases hgr : findGroup bit_groups (checkAgainst flags m) ≠ 0
    · rw [if_pos hgr]
      have hmem := (findGroup_ne_zero bit_groups _ hgr).1
      have inv1 : PassInv flags bit_groups (m + 1)
          (addControl st (wxControl.wxRadioButton true) m
            (findGroup bit_groups (checkAgainst flags m))) := by
        refine ⟨by simp [addControl, inv.len_group], by simp [addControl, inv.len_done],
          ?_, ?_, ?_⟩
        · intro i hi
          by_cases e : m = i
          · subst e
            simp only [addControl, groupMask_set_self _ _ _ hlg]
            exact hgr
          · simp only [addControl, groupMask_set_ne _ _ _ _ e]
            exact inv.done_grouped i hi
        · intro i hi h0
          by_cases e : m = i
          · subst e
            simp only [addControl, groupMask_set_self _ _ _ hlg] at h0
            exact absurd h0 hgr
          · simp only [addControl, groupMask_set_ne _ _ _ _ e] at h0
            exact inv.independent i (by omega) h0
        · intro i
          by_cases e : m = i
          · subst e
            simp only [addControl, groupMask_set_self _ _ _ hlg]
            exact fun _ => hmem
          · simp only [addControl, groupMask_set_ne _ _ _ _ e]
            exact inv.mask_mem i
      unfold markLater
      apply foldl_markLaterStep_info flags bit_groups _ (m + 1) hgr hmem
      · intro ii hii
        rw [List.mem_range'_1] at hii
        exact hii.1
      · exact inv1
      · refine ⟨by simp [addControl, info.len_controls], ?_, ?_⟩
        · intro i hi
          have e : m ≠ i := by
            intro e; subst e
            simp only [addControl] at hi
            rw [hd'] at hi; exact Bool.noConfusion hi
          simp only [addControl, groupMask_set_ne _ _ _ _ e, List.getElem?_set_ne e]
          exact info.done_info i hi
        · intro i hi hnd
          by_cases e : m = i
          · subst e
            simp only [addControl, groupMask_set_self _ _ _ hlg, List.getElem?_set_self hlc]
            refine ⟨trivial, ?_⟩
            rw [if_pos hgr]
          · simp only [addControl, groupMask_set_ne _ _ _ _ e, List.getElem?_set_ne e]
            exact info.leader_info i (by omega) hnd
    · rw [if_neg hgr]
      refine ⟨by simp [addControl, info.len_controls], ?_, ?_⟩
      · intro i hi
        have e : m ≠ i := by
          intro e; subst e
          simp only [addControl] at hi
          rw [hd'] at hi; exact Bool.noConfusion hi
        simp only [addControl, groupMask_set_ne _ _ _ _ e, List.getElem?_set_ne e]
        exact info.done_info i hi
      · intro i hi hnd
        by_cases e : m = i
        · subst e
          simp only [addControl, groupMask_set_self _ _ _ hlg, List.getElem?_set_self hlc]
          refine ⟨(not_not.1 hgr).symm, ?_⟩
          simp
        · simp only [addControl, groupMask_set_ne _ _ _ _ e, List.getElem?_set_ne e]
          exact info.leader_info i (by omega) hnd

theorem foldl_controlStep_info (flags : List arg_val_t) (bit_groups : List Int) (st : Controls)
    (inv : PassInv flags bit_groups 0 st) (info : PassInfo flags bit_groups 0 st) :
    ∀ m, m ≤ flags.length →
      PassInfo flags bit_groups m ((List.range m).foldl (controlStep flags bit_groups) st) := by
  intro m
  induction m with
  | zero => intro _; exact info
  | succ m ih =>
    intro hm
    rw [List.range_succ, List.foldl_append, List.foldl_cons, List.foldl_nil]
    exact controlStep_info flags bit_groups m _ (by omega)
      (foldl_controlStep_inv flags bit_groups st inv m (by omega)) (ih (by omega))

theorem construct_info (flags : List arg_val_t) :
    PassInfo flags (bitGroups flags) flags.length (construct flags) := by
  unfold construct
  apply foldl_controlStep_info flags (bitGroups flags) _ _ _ flags.length (le_refl _)
  · refine ⟨by simp, by simp, ?_, ?_, ?_⟩
    · intro i hi
      simp [isDone, List.getElem?_replicate] at hi
      split at hi <;> simp_all
    · intro i hi; omega
    · intro i hi
      exfalso
      apply hi
      simp only [groupMask, List.getElem?_replicate]
      split <;> simp_all
  · refine ⟨by simp, ?_, ?_⟩
    · intro i hi
      simp [isDone, List.getElem?_replicate] at hi
      split at hi <;> simp_all
    · intro i hi; omega

end ArgsFlagsControl

namespace ArgsFlagsControl

theorem bitand_comm_int (a b : Int) : bitand a b = bitand b a := by
  apply eq_of_testBit_eq
  intro k
  rw [testBit_bitand, testBit_bitand, Bool.and_comm]

theorem testBit_two_pow_int (k k' : Nat) : ((2 : Int) ^ k).testBit k' = decide (k = k') := by
  have : ((2 : Int) ^ k) = Int.ofNat (2 ^ k) := by simp
  rw [this]
  simp only [Int.testBit, Nat.testBit_two_pow]

theorem eq_two_pow_of_testBit (v : Int) (k0 : Nat)
    (h : ∀ k, v.testBit k = decide (k0 = k)) : v = 2 ^ k0 := by
  apply eq_of_testBit_eq
  intro k
  rw [h, testBit_two_pow_int]

/-- `isPowerOfTwo` accepts exactly 0 and the powers of two. -/
theorem isPowerOfTwo_iff (n : Int) : isPowerOfTwo n = true ↔ n = 0 ∨ ∃ k, n = 2 ^ k := by
  constructor
  · intro h
    rcases (isPowerOfTwo_cases n h).2 with h0 | ⟨k0, hk0⟩
    · exact Or.inl h0
    · exact Or.inr ⟨k0, eq_two_pow_of_testBit n k0 hk0⟩
  · rintro (rfl | ⟨k, rfl⟩)
    · decide
    · simp only [isPowerOfTwo, beq_iff_eq]
      have e : ((2 : Int) ^ k - 1) = Int.ofNat (2 ^ k - 1) := by
        have : 1 ≤ 2 ^ k := Nat.one_le_two_pow
        simp only [Int.ofNat_eq_coe]
        push_cast [this]
        ring
      rw [bitand_eq_zero_iff]
      intro j hj
      rw [testBit_two_pow_int] at hj
      have hkj : k = j := by simpa using hj
      subst hkj
      rw [e]
      simp [Int.testBit]

/-- The flag at index `i` is a leader or was claimed by one. -/
theorem flag_info (flags : List arg_val_t) (i : Nat) (hi : i < flags.length) :
    (isDone (construct flags).flag_done i = true ∧
      groupMask (flagToBitGroup flags) i ∈ bitGroups flags ∧
      bitand (flagValue flags i) (groupMask (flagToBitGroup flags) i) ≠ 0 ∧
      (construct flags).controls[i]? = some (some (wxControl.wxRadioButton false))) ∨
    (isDone (construct flags).flag_done i = false ∧
      groupMask (flagToBitGroup flags) i =
        findGroup (bitGroups flags) (checkAgainst flags i) ∧
      (construct flags).controls[i]? = some (some
        (if groupMask (flagToBitGroup flags) i ≠ 0 then wxControl.wxRadioButton true
         else wxControl.wxCheckBox))) := by
  have info := construct_info flags
  cases hd : isDone (construct flags).flag_done i with
  | true => exact Or.inl ⟨rfl, info.done_info i hd⟩
  | false => exact Or.inr ⟨rfl, info.leader_info i hi hd⟩

/-- A grouped flag with a non-zero value shares a bit with its group mask. -/
theorem grouped_shares_bit (flags : List arg_val_t) (i : Nat) (hi : i < flags.length)
    (hg : groupMask (flagToBitGroup flags) i ≠ 0) (hv : flagValue flags i ≠ 0) :
    bitand (groupMask (flagToBitGroup flags) i) (flagValue flags i) ≠ 0 := by
  rcases flag_info flags i hi with ⟨_, _, h, _⟩ | ⟨_, h, _⟩
  · rw [bitand_comm_int]; exact h
  · have hca : checkAgainst flags i = flagValue flags i := by simp [checkAgainst, hv]
    rw [hca] at h
    rw [h] at hg ⊢
    exact (findGroup_ne_zero _ _ hg).2

/-- The control of a flag is a checkbox exactly when its group mask is 0. -/
theorem control_kind (flags : List arg_val_t) (i : Nat) (hi : i < flags.length) :
    (groupMask (flagToBitGroup flags) i = 0 →
      (construct flags).controls[i]? = some (some wxControl.wxCheckBox)) ∧
    (groupMask (flagToBitGroup flags) i ≠ 0 →
      ∃ rb, (construct flags).controls[i]? = some (some (wxControl.wxRadioButton rb))) := by
  rcases flag_info flags i hi with ⟨hd, _, _, hc⟩ | ⟨_, _, hc⟩
  · refine ⟨fun h0 => absurd h0 ((construct_inv flags).done_grouped i hd), fun _ => ⟨false, hc⟩⟩
  · refine ⟨fun h0 => ?_, fun h1 => ⟨true, ?_⟩⟩
    · rw [hc, if_neg (not_not.2 h0)]
    · rw [hc, if_pos h1]

/-- C15. Bit-group partition, power-of-two values: a flag whose value is a single bit
contained in the mask of some computed bit group gets a non-zero group mask that contains
its bit, and its control is a radio button. -/
theorem single_bit_reclassified (flags : List arg_val_t) (i : Nat) (k : Nat) (g : Int)
    (hi : i < flags.length) (hv : flagValue flags i = 2 ^ k) (hg : g ∈ bitGroups flags)
    (hgk : g.testBit k = true) :
    groupMask (flagToBitGroup flags) i ≠ 0 ∧
      (groupMask (flagToBitGroup flags) i).testBit k = true ∧
      groupMask (flagToBitGroup flags) i ∈ bitGroups flags ∧
      ∃ rb, (construct flags).controls[i]? = some (some (wxControl.wxRadioButton rb)) := by
  have hvk : (flagValue flags i).testBit k = true := by rw [hv, testBit_two_pow_int]; simp
  have hv0 : flagValue flags i ≠ 0 := by
    intro h; rw [h, testBit_zero_int] at hvk; exact Bool.noConfusion hvk
  have hca : checkAgainst flags i = flagValue flags i := by simp [checkAgainst, hv0]
  have hne : groupMask (flagToBitGroup flags) i ≠ 0 := by
    intro h0
    have := independent_findGroup flags i hi h0 g hg
    rw [hca] at this
    exact bitand_ne_zero_of_common_bit g _ k hgk hvk this
  refine ⟨hne, ?_, groupMask_mem_bitGroups flags i hne, (control_kind flags i hi).2 hne⟩
  obtain ⟨k', h1, h2⟩ := exists_common_bit _ _ (grouped_shares_bit flags i hi hne hv0)
  rw [hv, testBit_two_pow_int] at h2
  have : k = k' := by simpa using h2
  rw [this]; exact h1

theorem single_bit_reclassified_witness :
    groupMask (flagToBitGroup exampleFlags) 1 ≠ 0 ∧
      (groupMask (flagToBitGroup exampleFlags) 1).testBit 0 = true ∧
      groupMask (flagToBitGroup exampleFlags) 1 ∈ bitGroups exampleFlags ∧
      ∃ rb, (construct exampleFlags).controls[1]? = some (some (wxControl.wxRadioButton rb)) :=
  single_bit_reclassified exampleFlags 1 0 3 (by decide) (by decide) (by decide) (by decide)

/-- C18. Every flag the constructor leaves independent (group mask 0, a checkbox) has a
value that is 0 or a single bit; equivalently every flag whose value `isPowerOfTwo` rejects
(neither 0 nor a power of two) gets a non-zero group mask and a radio button. -/
theorem independent_flag_values (flags : List arg_val_t) (i : Nat) (hi : i < flags.length) :
    (groupMask (flagToBitGroup flags) i = 0 →
      (construct flags).controls[i]? = some (some wxControl.wxCheckBox) ∧
      (flagValue flags i = 0 ∨ ∃ k, flagValue flags i = 2 ^ k)) ∧
    ((flagValue flags i ≠ 0 ∧ ∀ k, flagValue flags i ≠ 2 ^ k) →
      isPowerOfTwo (flagValue flags i) = false ∧
      groupMask (flagToBitGroup flags) i ≠ 0 ∧
      ∃ rb, (construct flags).controls[i]? = some (some (wxControl.wxRadioButton rb))) := by
  have hind : groupMask (flagToBitGroup flags) i = 0 →
      flagValue flags i = 0 ∨ ∃ k, flagValue flags i = 2 ^ k := fun h0 =>
    (isPowerOfTwo_iff _).1 (independent_isPowerOfTwo flags i hi h0)
  refine ⟨fun h0 => ⟨(control_kind flags i hi).1 h0, hind h0⟩, fun ⟨h1, h2⟩ => ?_⟩
  have hne : groupMask (flagToBitGroup flags) i ≠ 0 := by
    intro h0
    rcases hind h0 with h | ⟨k, h⟩
    · exact h1 h
    · exact h2 k h
  refine ⟨?_, hne, (control_kind flags i hi).2 hne⟩
  cases hp : isPowerOfTwo (flagValue flags i) with
  | false => rfl
  | true =>
    rcases (isPowerOfTwo_iff _).1 hp with h | ⟨k, h⟩
    · exact absurd h h1
    · exact absurd h (h2 k)

theorem independent_flag_values_witness :
    (groupMask (flagToBitGroup isolatedFlags) 0 = 0 →
      (construct isolatedFlags).controls[0]? = some (some wxControl.wxCheckBox) ∧
      (flagValue isolatedFlags 0 = 0 ∨ ∃ k, flagValue isolatedFlags 0 = 2 ^ k)) ∧
    ((flagValue isolatedFlags 0 ≠ 0 ∧ ∀ k, flagValue isolatedFlags 0 ≠ 2 ^ k) →
      isPowerOfTwo (flagValue isolatedFlags 0) = false ∧
      groupMask (flagToBitGroup isolatedFlags) 0 ≠ 0 ∧
      ∃ rb, (construct isolatedFlags).controls[0]? =
        some (some (wxControl.wxRadioButton rb))) :=
  independent_flag_values isolatedFlags 0 (by decide)

end ArgsFlagsControl

namespace ArgsFlagsControl

theorem checkAgainst_zero (flags : List arg_val_t) (i : Nat) (hi : i + 1 < flags.length)
    (hz : flagValue flags i = 0) : checkAgainst flags i = flagValue flags (i + 1) := by
  simp [checkAgainst, hz, hi]

theorem checkAgainst_nonzero (flags : List arg_val_t) (i : Nat) (hv : flagValue flags i ≠ 0) :
    checkAgainst flags i = flagValue flags i := by
  simp [checkAgainst, hv]

/-- A flag of value 0 is never claimed by a group leader: it is handled as a leader itself,
with the first bit group that shares a bit with the value it is checked against. -/
theorem zero_flag_mask (flags : List arg_val_t) (i : Nat) (hi : i < flags.length)
    (hz : flagValue flags i = 0) :
    groupMask (flagToBitGroup flags) i = findGroup (bitGroups flags) (checkAgainst flags i) := by
  rcases flag_info flags i hi with ⟨_, _, h, _⟩ | ⟨_, h, _⟩
  · rw [hz, bitand_zero_left] at h
    exact absurd rfl h
  · exact h

/-- C16 (the code at the failing input). In the list of values 0, 0, 3 the first flag has
value 0 and is followed by another flag, yet the constructor leaves it independent (group
mask 0, a checkbox) while the flag after it gets the group mask 3 and a radio button: the
flag is not folded into the next flag's group. -/
theorem zero_fold_fails :
    flagValue zeroFlags 0 = 0 ∧ 0 + 1 < zeroFlags.length ∧
      bitGroups zeroFlags = [3] ∧
      flagToBitGroup zeroFlags = [0, 3, 3] ∧
      (construct zeroFlags).controls =
        [some wxControl.wxCheckBox, some (wxControl.wxRadioButton true),
         some (wxControl.wxRadioButton false)] ∧
      groupMask (flagToBitGroup zeroFlags) 0 ≠ groupMask (flagToBitGroup zeroFlags) (0 + 1) := by
  decide

/-- A flag of value 0 that is followed by another flag gets the first computed bit group
that shares a bit with the next flag's value (0 if there is none). -/
theorem zero_flag_lookup (flags : List arg_val_t) (i : Nat) (hi : i + 1 < flags.length)
    (hz : flagValue flags i = 0) :
    groupMask (flagToBitGroup flags) i =
      findGroup (bitGroups flags) (flagValue flags (i + 1)) := by
  rw [zero_flag_mask flags i (by omega) hz, checkAgainst_zero flags i hi hz]

/-- A flag of value 0 ends in the group of the flag after it when that flag has a non-zero
value and all bit groups sharing a bit with that value are one and the same group. -/
theorem zero_flag_same_group (flags : List arg_val_t) (i : Nat) (hi : i + 1 < flags.length)
    (hz : flagValue flags i = 0) (hnz : flagValue flags (i + 1) ≠ 0)
    (huniq : ∀ g ∈ bitGroups flags, ∀ g' ∈ bitGroups flags,
      bitand g (flagValue flags (i + 1)) ≠ 0 → bitand g' (flagValue flags (i + 1)) ≠ 0 →
      g = g') :
    groupMask (flagToBitGroup flags) i = groupMask (flagToBitGroup flags) (i + 1) := by
  rw [zero_flag_lookup flags i hi hz]
  rcases flag_info flags (i + 1) hi with ⟨_, hmem, hb, _⟩ | ⟨_, h, _⟩
  · rw [bitand_comm_int] at hb
    have hne : findGroup (bitGroups flags) (flagValue flags (i + 1)) ≠ 0 := by
      intro h0
      exact hb (findGroup_eq_zero _ _ h0 _ hmem)
    obtain ⟨hm, hfb⟩ := findGroup_ne_zero _ _ hne
    exact huniq _ hm _ hmem hfb hb
  · rw [h, checkAgainst_nonzero flags (i + 1) hnz]

/-- C13. The example of the specification: for the flags None 0, Low 1, Medium 2, High 3
the constructor computes exactly one bit group, with mask 3, gives all four flags the group
mask 3 and a radio button (none a checkbox), and decoding the value 2 selects "Medium" and
no other. -/
theorem example_partition :
    bitGroups exampleFlags = [3] ∧
      flagToBitGroup exampleFlags = [3, 3, 3, 3] ∧
      (construct exampleFlags).controls =
        [some (wxControl.wxRadioButton true), some (wxControl.wxRadioButton false),
         some (wxControl.wxRadioButton false), some (wxControl.wxRadioButton false)] ∧
      updateCheckState exampleFlags (flagToBitGroup exampleFlags) 2 =
        [false, false, true, false] := by
  decide

/-- C12 (as stated, refuted). Decoding the value 5 on the example flags does not leave all
four radio buttons unselected: "Low" is selected. -/
theorem example_value_5_counterexample :
    updateCheckState exampleFlags (flagToBitGroup exampleFlags) 5 ≠
        [false, false, false, false] ∧
      (updateCheckState exampleFlags (flagToBitGroup exampleFlags) 5)[1]? = some true := by
  decide

/-- C12 (amended). On the example flags every value `val >= 0` selects exactly the radio
button whose flag value is `val & 3` (the group mask hides every other bit); the value 5,
with `5 & 3 = 1`, selects "Low" and no other. -/
theorem example_decode (val : Int) (h0 : 0 ≤ val) :
    updateCheckState exampleFlags (flagToBitGroup exampleFlags) val =
        [bitand val 3 == 0, bitand val 3 == 1, bitand val 3 == 2, bitand val 3 == 3] ∧
      updateCheckState exampleFlags (flagToBitGroup exampleFlags) 5 =
        [false, true, false, false] := by
  refine ⟨?_, by decide⟩
  have hg : flagToBitGroup exampleFlags = [3, 3, 3, 3] := by decide
  rw [hg]
  simp [updateCheckState, exampleFlags, List.range, List.range.loop, checkState, flagValue,
    groupMask, h0]

theorem example_decode_witness :
    updateCheckState exampleFlags (flagToBitGroup exampleFlags) 6 =
        [bitand 6 3 == 0, bitand 6 3 == 1, bitand 6 3 == 2, bitand 6 3 == 3] ∧
      updateCheckState exampleFlags (flagToBitGroup exampleFlags) 5 =
        [false, true, false, false] :=
  example_decode 6 (by decide)

/-- C14 (the code at the failing input). For the flags 4, 3, 12, 10 the values 3 and 10 are
both not powers of two and share bit 1, yet the constructor computes the two overlapping
bit groups 11 and 12 and gives 3 the group mask 11 and 10 the group mask 12. -/
theorem bridged_groups :
    isPowerOfTwo (flagValue bridgedFlags 1) = false ∧
      isPowerOfTwo (flagValue bridgedFlags 3) = false ∧
      bitand (flagValue bridgedFlags 1) (flagValue bridgedFlags 3) = 2 ∧
      bitGroups bridgedFlags = [11, 12] ∧
      flagToBitGroup bridgedFlags = [12, 11, 12, 12] ∧
      groupMask (flagToBitGroup bridgedFlags) 1 ≠ groupMask (flagToBitGroup bridgedFlags) 3 := by
  decide

/-- C19 (the code at the failing input). For the flags 3, 12, 6 the flag 12 is given the
group mask 7, which does not contain its value; switching its radio button on from the
value 0 writes 12, and decoding 12 leaves that radio button (and every other) unselected. -/
theorem toggle_then_decode_fails :
    flagToBitGroup overlappingFlags = [7, 7, 7] ∧
      bitand (flagValue overlappingFlags 1) (groupMask (flagToBitGroup overlappingFlags) 1) ≠
        flagValue overlappingFlags 1 ∧
      ArgsTextControl.getArgValue ['0'] = some 0 ∧
      onCheck overlappingFlags (flagToBitGroup overlappingFlags) ['0'] 1 true =
        some ['1', '2'] ∧
      ArgsTextControl.getArgValue ['1', '2'] = some 12 ∧
      (updateCheckState overlappingFlags (flagToBitGroup overlappingFlags) 12)[1]? =
        some false := by
  decide

/-- Toggle-then-decode is consistent for every control whose value is a non-negative
`int` lying within its group mask (every independent control among them). -/
theorem toggle_then_decode_of_within (flags : List arg_val_t) (groups : List Int)
    (val : Int) (i : Nat) (h0 : 0 ≤ val) (h1 : val ≤ INT_MAX) (hf0 : 0 ≤ flagValue flags i)
    (hf1 : flagValue flags i ≤ INT_MAX)
    (hw : groupMask groups i ≠ 0 →
      bitand (flagValue flags i) (groupMask groups i) = flagValue flags i) :
    checkState (toggledValue flags groups val i true) (flagValue flags i) (groupMask groups i) =
      true := by
  have hr := toggledValue_range flags groups val i true h0 h1 hf0 hf1
  by_cases hg : groupMask groups i = 0
  · have : bitand (toggledValue flags groups val i true) (flagValue flags i) =
        flagValue flags i := by
      apply eq_of_testBit_eq
      intro k
      rw [testBit_bitand]
      cases hk : (flagValue flags i).testBit k with
      | false => simp
      | true => simp [(toggledValue_on_testBit flags groups val i k).2 (Or.inr hk)]
    simp [checkState, hg, hr.1, this]
  · have : bitand (toggledValue flags groups val i true) (groupMask groups i) =
        flagValue flags i := by
      apply eq_of_testBit_eq
      intro k
      rw [testBit_bitand]
      cases hk : (flagValue flags i).testBit k with
      | false =>
        cases hgk : (groupMask groups i).testBit k with
        | false => simp
        | true =>
          have : (toggledValue flags groups val i true).testBit k = false := by
            cases ht : (toggledValue flags groups val i true).testBit k with
            | false => rfl
            | true =>
              rcases (toggledValue_on_testBit flags groups val i k).1 ht with ⟨_, h⟩ | h
              · rw [clearMask_of_grouped _ _ _ hg, hgk] at h; exact Bool.noConfusion h
              · rw [hk] at h; exact Bool.noConfusion h
          simp [this]
      | true =>
        have h2 := bitsWithin_of_bitand _ _ (hw hg) k hk
        simp [(toggledValue_on_testBit flags groups val i k).2 (Or.inr hk), h2]
    simp [checkState, hg, hr.1, this]

end ArgsFlagsControl

/-! ## The value controls -/

namespace ArgsChoiceControl

theorem findChoice_some (choices : List arg_val_t) (val : Int) :
    ∀ (i j : Nat), findChoice choices val i = some j →
      i ≤ j ∧ ∃ c, choices[j - i]? = some c ∧ c.value = val := by
  induction choices with
  | nil => intro i j h; simp [findChoice] at h
  | cons c cs ih =>
    intro i j h
    simp only [findChoice] at h
    by_cases hv : val = c.value
    · rw [if_pos hv] at h
      simp only [Option.some.injEq] at h
      subst h
      exact ⟨le_refl _, c, by simp, hv.symm⟩
    · rw [if_neg hv] at h
      obtain ⟨h1, c', h2, h3⟩ := ih (i + 1) j h
      refine ⟨by omega, c', ?_, h3⟩
      have : j - i = (j - (i + 1)) + 1 := by omega
      rw [this, List.getElem?_cons_succ]
      exact h2

/-- The choice control returns what it was set to (−1 for a negative value). -/
theorem choice_getArgValue_setArgValue (choices : List arg_val_t) (choice_control : wxComboBox)
    (v : Int) (hlong : v ≤ LONG_MAX) :
    getArgValue choices (setArgValue choices choice_control v) =
      some (if v < 0 then -1 else v) := by
  by_cases hv : v < 0
  · simp [setArgValue, hv, ChangeValue, getArgValue]
  · simp only [setArgValue, hv, if_false]
    cases hf : findChoice choices v 0 with
    | some i =>
      obtain ⟨_, c, hc, hcv⟩ := findChoice_some choices v 0 i hf
      simp only [Nat.sub_zero] at hc
      simp [SetSelection, getArgValue, hc, hcv]
    | none =>
      have h := ToLong_fmtLong v (by omega) hlong
      simp [ChangeValue, getArgValue, h.1, h.2]

end ArgsChoiceControl

namespace ArgsSpeedControl

theorem speed_getArgValue_setArgValue (c : ArgsSpeedControl) (v : Int) :
    getArgValue (setArgValue c v) = some (if toInt v < 0 then -1 else toInt v) := by
  simp only [getArgValue, setArgValue, syncControls]
  by_cases hv : toInt v < 0
  · rw [if_pos hv, (ArgsTextControl.getArgValue_setArgValue_neg _ hv).2]
  · rw [if_neg hv, ArgsTextControl.getArgValue_setArgValue_nonneg _ (by omega)
      (ArgsFlagsControl.INT_MAX_le_LONG_MAX _ (ArgsFlagsControl.toInt_le_INT_MAX v))]

end ArgsSpeedControl

/-- C11 (as stated, refuted). After `setArgValue(300)` each of the four arg controls
returns 300 from `getArgValue()`, which is outside [-1, 255]. -/
theorem value_range_counterexample :
    ArgsTextControl.getArgValue (ArgsTextControl.setArgValue 300) = some 300 ∧
      ArgsChoiceControl.getArgValue [] (ArgsChoiceControl.setArgValue [] ⟨none, []⟩ 300) =
        some 300 ∧
      ArgsTextControl.getArgValue (ArgsFlagsControl.setArgValue exampleFlags
        (ArgsFlagsControl.flagToBitGroup exampleFlags) 300).1 = some 300 ∧
      ArgsSpeedControl.getArgValue (ArgsSpeedControl.setArgValue ⟨[], 0⟩ 300) = some 300 ∧
      ¬ ((300 : Int) ≤ 255) := by
  decide

/-- C11 (amended). Value-control contract: for each of the four arg controls (plain text,
choice, flags, speed) and every `long` value `v`, `getArgValue()` after `setArgValue(v)`
returns -1 when `v < 0` and `v` itself when `v >= 0` (the speed control takes `v` as an
`int`); no control clamps the value, so the result lies in [-1, 255] exactly when
`v <= 255`. -/
theorem value_control_contract (v : Int) (hlong : v ≤ LONG_MAX) :
    ArgsTextControl.getArgValue (ArgsTextControl.setArgValue v) =
        some (if v < 0 then -1 else v) ∧
      (∀ choices choice_control,
        ArgsChoiceControl.getArgValue choices
          (ArgsChoiceControl.setArgValue choices choice_control v) =
            some (if v < 0 then -1 else v)) ∧
      (∀ flags flag_to_bit_group,
        ArgsTextControl.getArgValue
          (ArgsFlagsControl.setArgValue flags flag_to_bit_group v).1 =
            some (if v < 0 then -1 else v)) ∧
      (∀ c, ArgsSpeedControl.getArgValue (ArgsSpeedControl.setArgValue c v) =
        some (if toInt v < 0 then -1 else toInt v)) ∧
      (-1 ≤ (if v < 0 then -1 else v) ∧ ((if v < 0 then -1 else v) ≤ 255 ↔ v ≤ 255)) := by
  have ht : ArgsTextControl.getArgValue (ArgsTextControl.setArgValue v) =
      some (if v < 0 then -1 else v) := by
    by_cases hv : v < 0
    · rw [if_pos hv, (ArgsTextControl.getArgValue_setArgValue_neg v hv).2]
    · rw [if_neg hv, ArgsTextControl.getArgValue_setArgValue_nonneg v (by omega) hlong]
  refine ⟨ht, fun choices cc => ArgsChoiceControl.choice_getArgValue_setArgValue choices cc v hlong,
    fun _ _ => ht, fun c => ArgsSpeedControl.speed_getArgValue_setArgValue c v, ?_⟩
  by_cases hv : v < 0
  · simp only [if_pos hv]
    exact ⟨le_refl _, fun _ => by omega, fun _ => by decide⟩
  · simp only [if_neg hv]
    exact ⟨by omega, trivial⟩

theorem value_control_contract_witness :
    ArgsTextControl.getArgValue (ArgsTextControl.setArgValue 255) =
        some (if (255 : Int) < 0 then -1 else 255) ∧
      (∀ choices choice_control,
        ArgsChoiceControl.getArgValue choices
          (ArgsChoiceControl.setArgValue choices choice_control 255) =
            some (if (255 : Int) < 0 then -1 else 255)) ∧
      (∀ flags flag_to_bit_group,
        ArgsTextControl.getArgValue
          (ArgsFlagsControl.setArgValue flags flag_to_bit_group 255).1 =
            some (if (255 : Int) < 0 then -1 else 255)) ∧
      (∀ c, ArgsSpeedControl.getArgValue (ArgsSpeedControl.setArgValue c 255) =
        some (if toInt 255 < 0 then -1 else toInt 255)) ∧
      (-1 ≤ (if (255 : Int) < 0 then -1 else 255) ∧
        ((if (255 : Int) < 0 then -1 else 255) ≤ 255 ↔ (255 : Int) ≤ 255)) :=
  value_control_contract 255 (by decide)

/-! ## The specials tree -/

namespace ActionSpecialTreeView


/-- In a list of groups without repeated paths, looking a path up finds its own entry. -/
theorem find_group_of_mem (groups : List astv_group_t) (h : (groups.map fun g => g.name).Nodup)
    (g : astv_group_t) (hg : g ∈ groups) :
    groups.find? (fun x => g.name == x.name) = some g := by
  induction groups with
  | nil => simp at hg
  | cons x xs ih =>
    simp only [List.map_cons, List.nodup_cons] at h
    rcases List.mem_cons.1 hg with rfl | hg'
    · simp [List.find?_cons]
    · have hne : ¬ (g.name = x.name) := by
        intro e
        apply h.1
        rw [← e]
        exact List.mem_map.2 ⟨g, hg', rfl⟩
      have hb : (g.name == x.name) = false := by simpa using hne
      rw [List.find?_cons, hb]
      exact ih h.2 hg'

theorem groups_AppendContainer (tv : ActionSpecialTreeView) (parent : wxDataViewItem)
    (text : wxString) : (AppendContainer tv parent text).1.groups = tv.groups := rfl

/-- The loop of `getGroup` never adds a path that is already in the list. -/
theorem createGroups_nodup (path : List wxString) :
    ∀ (tv : ActionSpecialTreeView) (current : wxDataViewItem) (fullpath : wxString)
      (later : Bool), (tv.groups.map fun g => g.name).Nodup →
      ((createGroups tv path current fullpath later).1.groups.map fun g => g.name).Nodup := by
  induction path with
  | nil => intro tv current fullpath later h; exact h
  | cons segment rest ih =>
    intro tv current fullpath later h
    simp only [createGroups]
    split
    · exact ih _ _ _ _ h
    · next hnone =>
      apply ih
      simp only [groups_AppendContainer, List.map_append, List.map_cons, List.map_nil]
      rw [List.nodup_append]
      refine ⟨h, List.nodup_singleton _, ?_⟩
      intro a ha hb
      simp only [List.mem_singleton] at hb
      subst hb
      obtain ⟨g, hg, hga⟩ := List.mem_map.1 ha
      have := List.find?_eq_none.1 hnone g hg
      exact this (by simpa using hga)

theorem getGroup_nodup (tv : ActionSpecialTreeView) (group : wxString)
    (h : (tv.groups.map fun g => g.name).Nodup) :
    ((getGroup tv group).1.groups.map fun g => g.name).Nodup := by
  simp only [getGroup]
  split
  · exact h
  · exact createGroups_nodup _ _ _ _ _ h

theorem getGroups_nodup (paths : List wxString) :
    ∀ (tv : ActionSpecialTreeView), (tv.groups.map fun g => g.name).Nodup →
      ((getGroups tv paths).groups.map fun g => g.name).Nodup := by
  induction paths with
  | nil => intro tv h; exact h
  | cons p ps ih =>
    intro tv h
    exact ih _ (getGroup_nodup tv p h)

/-- C17. `getGroup` keeps one node per unique group path: starting from the empty group
list, after any sequence of `getGroup` calls no two cached groups have the same full path,
and a call with a path that is in the list returns the cached item and changes nothing. -/
theorem getGroup_one_node_per_path (tv : ActionSpecialTreeView) (paths : List wxString)
    (h0 : tv.groups = []) :
    ((getGroups tv paths).groups.map fun g => g.name).Nodup ∧
      ∀ g ∈ (getGroups tv paths).groups,
        getGroup (getGroups tv paths) g.name = (getGroups tv paths, g.item) := by
  have hn := getGroups_nodup paths tv (by rw [h0]; exact List.nodup_nil)
  refine ⟨hn, fun g hg => ?_⟩
  simp only [getGroup, find_group_of_mem _ hn g hg]

theorem getGroup_one_node_per_path_witness :
    ((getGroups (construct []) [['a', '/', 'b'], ['a'], ['a', '/', 'b']]).groups.map
        fun g => g.name).Nodup ∧
      ∀ g ∈ (getGroups (construct []) [['a', '/', 'b'], ['a'], ['a', '/', 'b']]).groups,
        getGroup (getGroups (construct []) [['a', '/', 'b'], ['a'], ['a', '/', 'b']]) g.name =
          (getGroups (construct []) [['a', '/', 'b'], ['a'], ['a', '/', 'b']], g.item) :=
  getGroup_one_node_per_path (construct []) [['a', '/', 'b'], ['a'], ['a', '/', 'b']]
    (by decide)

/-- C20 (the code at the failing input). A special without a group path is appended under
the root, next to "0: None"; `showSpecial` only looks at the children of the groups, so
after `showSpecial(5)` nothing is selected and `selectedSpecial()` returns -1. -/
theorem show_ungrouped_special :
    (construct ungroupedSpecials).nodes =
        [⟨0, ['0', ':', ' ', 'N', 'o', 'n', 'e'], false⟩, ⟨0, ['5', ':', ' ', 'X'], false⟩] ∧
      (construct ungroupedSpecials).groups = [] ∧
      specialNumber (construct ungroupedSpecials) 2 = 5 ∧
      showSpecial (construct ungroupedSpecials) 5 = construct ungroupedSpecials ∧
      selectedSpecial (showSpecial (construct ungroupedSpecials) 5) = -1 := by
  decide

end ActionSpecialTreeView
